import Mathlib

/-!
# A shallow embedding of `OS/os.c`

The program is a bare-metal monitor for the BeagleBone Black: a polled UART,
the DMTIMER2 periodic interrupt and a foreground loop printing pseudo-random
numbers.  Every register access of the C code goes through `GET32`/`PUT32`;
here the accesses are recorded, oldest first, in a trace of `Event`s, and the
values that reads return are supplied by an environment `Env`.

Conventions
* `unsigned int` is a `Nat` reduced `% 2^32` where the C code can wrap;
* `char` is the unsigned 8-bit `char` of the ARM EABI, a `Nat` reduced `% 256`
  where the C code converts to `char`;
* `int` is an `Int`; the one `int` operation that can leave the 32-bit range,
  `max_length - 1` in `os_read`, wraps as two's-complement arithmetic does;
* the two busy-wait loops take a `fuel` bounding the number of polls and
  return `none` when the bound is hit; every result about them is stated as
  "all sufficiently large fuels give this result" (`RunsTo`).
-/

namespace OS

/-! ## Register map (`#define`s of os.c) -/

def UART0_BASE : Nat := 0x44E09000
def UART_THR : Nat := UART0_BASE + 0x00
def UART_LSR : Nat := UART0_BASE + 0x14
def UART_LSR_THRE : Nat := 0x20
def UART_LSR_RXFE : Nat := 0x10

def DMTIMER2_BASE : Nat := 0x48040000
def TCLR : Nat := DMTIMER2_BASE + 0x38
def TCRR : Nat := DMTIMER2_BASE + 0x3C
def TISR : Nat := DMTIMER2_BASE + 0x28
def TIER : Nat := DMTIMER2_BASE + 0x2C
def TLDR : Nat := DMTIMER2_BASE + 0x40

def INTCPS_BASE : Nat := 0x48200000
def INTC_MIR_CLEAR2 : Nat := INTCPS_BASE + 0xC8
def INTC_CONTROL : Nat := INTCPS_BASE + 0x48
def INTC_ILR68 : Nat := INTCPS_BASE + 0x110

def CM_PER_BASE : Nat := 0x44E00000
def CM_PER_TIMER2_CLKCTRL : Nat := CM_PER_BASE + 0x80

/-! ## Machine model -/

/-- One observable action of the program on the platform. -/
inductive Event where
  /-- The call `GET32(addr)` returned `val`. -/
  | get (addr val : Nat)
  /-- The call `PUT32(addr, val)`. -/
  | put (addr val : Nat)
  /-- A call of `enable_irq()`. -/
  | irq
  deriving DecidableEq

/-- The hardware as the program sees it: `env addr k` is the value returned
by the `k`-th read (counting from 0) of the register at `addr`. -/
abbrev Env := Nat → Nat → Nat

/-- Software-visible state: the register accesses performed so far (oldest
first) and the generator variable `seed`. -/
structure State where
  trace : List Event
  seed : Nat

/-- State at program start: nothing done yet, `seed = 12345`. -/
def State.init : State := { trace := [], seed := 12345 }

/-- Number of reads of `addr` recorded in a trace. -/
def readCount (addr : Nat) (tr : List Event) : Nat :=
  tr.countP (fun e => match e with
    | Event.get a _ => decide (a = addr)
    | _ => false)

/-- Modelled from the spec: the external primitive `read32(addr) -> u32`
(`GET32`, defined outside os.c).  The value comes from the environment and
is a 32-bit word; the access is appended to the trace. -/
def GET32 (env : Env) (addr : Nat) (st : State) : Nat × State :=
  let v := env addr (readCount addr st.trace) % 2 ^ 32
  (v, { st with trace := st.trace ++ [Event.get addr v] })

/-- Modelled from the spec: the external primitive `write32(addr, value)`
(`PUT32`, defined outside os.c), with a 32-bit `value`. -/
def PUT32 (addr val : Nat) (st : State) : State :=
  { st with trace := st.trace ++ [Event.put addr (val % 2 ^ 32)] }

/-- Modelled from the spec: the external primitive that globally unmasks
interrupts (`enable_irq`, defined outside os.c). -/
def enable_irq (st : State) : State :=
  { st with trace := st.trace ++ [Event.irq] }

/-! ## UART functions -/

/-- Function `uart_putc`: poll `UART_LSR` until `THRE` is set, then write `c` to
`UART_THR`.  `fuel` bounds the number of polls. -/
def uart_putc (env : Env) : Nat → Nat → State → Option State
  | 0, _, _ => none
  | fuel + 1, c, st =>
    let r := GET32 env UART_LSR st
    if r.1 &&& UART_LSR_THRE = 0 then uart_putc env fuel c r.2
    else some (PUT32 UART_THR (c % 256) r.2)

/-- Function `uart_getc`: poll `UART_LSR` until `RXFE` is clear, then read the receive
register (same address as `UART_THR`) and return its low 8 bits as a
`char`.  `fuel` bounds the number of polls. -/
def uart_getc (env : Env) : Nat → State → Option (Nat × State)
  | 0, _ => none
  | fuel + 1, st =>
    let r := GET32 env UART_LSR st
    if r.1 &&& UART_LSR_RXFE ≠ 0 then uart_getc env fuel r.2
    else
      let d := GET32 env UART_THR r.2
      some ((d.1 &&& 0xFF) % 256, d.2)

/-- Function `os_write`: the argument lists the bytes stored at `s`; as for every C
string a zero byte follows the last listed one.  The loop stops at the first
zero byte it meets. -/
def os_write (env : Env) (fuel : Nat) : List Nat → State → Option State
  | [], st => some st
  | c :: s, st =>
    if c = 0 then some st
    else
      match uart_putc env fuel c st with
      | none => none
      | some st1 => os_write env fuel s st1

/-- The caller's buffer of `os_read`: its contents by index, and the indices
stored to so far (oldest first). -/
structure Buffer where
  data : Nat → Nat
  stores : List Nat

/-- The assignment `buffer[i] = c`. -/
def Buffer.store (b : Buffer) (i c : Nat) : Buffer :=
  { data := Function.update b.data i c, stores := b.stores ++ [i] }

/-- The value of `x - 1` in 32-bit `int` arithmetic, for an `int` `x`.  The
subtraction leaves the range of `int` only at `x = INT_MIN = -2^31`; signed
overflow is undefined in C, and the model takes the two's-complement result
`INT_MAX = 2^31 - 1` that the compiled code computes there. -/
def int_sub_one (x : Int) : Int :=
  if x - 1 < -2147483648 then x - 1 + 4294967296 else x - 1

/-- The `while (i < max_length - 1)` loop of `os_read`, entered with the
current `i`; returns `i`, the buffer and the state at loop exit.  The bound
`max_length - 1` is computed in `int`. -/
def os_read_loop (env : Env) (fuel : Nat) (max_length : Int) (i : Nat)
    (buffer : Buffer) (st : State) : Option (Nat × Buffer × State) :=
  if (i : Int) < int_sub_one max_length then
    match uart_getc env fuel st with
    | none => none
    | some (c, st1) =>
      if c = 10 ∨ c = 13 then
        match uart_putc env fuel 10 st1 with
        | none => none
        | some st2 => some (i, buffer, st2)
      else
        match uart_putc env fuel c st1 with
        | none => none
        | some st2 => os_read_loop env fuel max_length (i + 1) (buffer.store i c) st2
  else some (i, buffer, st)
termination_by (int_sub_one max_length - (i : Int)).toNat
decreasing_by omega

/-- Function `os_read`: run the loop from `i = 0`, then store the terminator at the
final `i`. -/
def os_read (env : Env) (fuel : Nat) (buffer : Buffer) (max_length : Int)
    (st : State) : Option (Buffer × State) :=
  match os_read_loop env fuel max_length 0 buffer st with
  | none => none
  | some (i, b, st1) => some (b.store i 0, st1)

/-- The `do { ... } while (num > 0 && i < 10)` loop of `uart_putnum`;
returns `num`, `i` and `buf` at loop exit. -/
def uart_putnum_digits (num i : Nat) (buf : Nat → Nat) : Nat × Nat × (Nat → Nat) :=
  let buf1 := Function.update buf i ((num % 10 + 48) % 256)
  let i1 := i + 1
  let num1 := num / 10
  if num1 > 0 ∧ i1 < 10 then uart_putnum_digits num1 i1 buf1
  else (num1, i1, buf1)
termination_by 10 - i
decreasing_by omega

/-- The `while (i > 0) uart_putc(buf[--i])` loop of `uart_putnum`. -/
def uart_putnum_emit (env : Env) (fuel : Nat) : Nat → (Nat → Nat) → State → Option State
  | 0, _, st => some st
  | i + 1, buf, st =>
    match uart_putc env fuel (buf i) st with
    | none => none
    | some st1 => uart_putnum_emit env fuel i buf st1

/-- Function `uart_putnum`; `buf` is the indeterminate initial content of the local
array `char buf[10]`. -/
def uart_putnum (env : Env) (fuel : Nat) (buf : Nat → Nat) (num : Nat)
    (st : State) : Option State :=
  if num = 0 then
    match uart_putc env fuel 48 st with
    | none => none
    | some st1 => uart_putc env fuel 10 st1
  else
    let r := uart_putnum_digits num 0 buf
    match uart_putnum_emit env fuel r.2.1 r.2.2 st with
    | none => none
    | some st1 => uart_putc env fuel 10 st1

/-! ## Timer functions -/

/-- Function `timer_init`: the nine register writes, in source order. -/
def timer_init (st : State) : State :=
  let st := PUT32 CM_PER_TIMER2_CLKCTRL 0x2 st
  let st := PUT32 INTC_MIR_CLEAR2 (1 <<< 4) st
  let st := PUT32 INTC_ILR68 0x0 st
  let st := PUT32 TCLR 0x0 st
  let st := PUT32 TISR 0x7 st
  let st := PUT32 TLDR 0xFE91CA00 st
  let st := PUT32 TCRR 0xFE91CA00 st
  let st := PUT32 TIER 0x2 st
  PUT32 TCLR 0x3 st

/-- The string literal `"Tick\n"`. -/
def tick : List Nat := [84, 105, 99, 107, 10]

/-- Function `timer_irq_handler`: clear the timer flag, acknowledge at the
interrupt controller, print the tick. -/
def timer_irq_handler (env : Env) (fuel : Nat) (st : State) : Option State :=
  let st := PUT32 TISR 0x2 st
  let st := PUT32 INTC_CONTROL 0x1 st
  os_write env fuel tick st

/-! ## Pseudo-random generator -/

/-- Function `rand`: one step of the generator in wrapping 32-bit arithmetic, masked
with `0x7fffffff`; returns the new `seed`. -/
def rand (st : State) : Nat × State :=
  let seed := ((st.seed * 1103515245 % 2 ^ 32 + 12345) % 2 ^ 32) &&& 0x7fffffff
  (seed, { st with seed := seed })

/-! ## Main program -/

/-- The string literal `"Starting...\n"`. -/
def msg_starting : List Nat := [83, 116, 97, 114, 116, 105, 110, 103, 46, 46, 46, 10]

/-- The string literal `"Timer initialized\n"`. -/
def msg_timer_initialized : List Nat :=
  [84, 105, 109, 101, 114, 32, 105, 110, 105, 116, 105, 97, 108, 105, 122, 101, 100, 10]

/-- The string literal `"Enabling interrupts...\n"`. -/
def msg_enabling : List Nat :=
  [69, 110, 97, 98, 108, 105, 110, 103, 32, 105, 110, 116, 101, 114, 114, 117, 112, 116, 115,
   46, 46, 46, 10]

/-- The string literal `"IRQs enabled\n"`. -/
def msg_irqs_enabled : List Nat := [73, 82, 81, 115, 32, 101, 110, 97, 98, 108, 101, 100, 10]

/-- The part of `main` before the `while (1)` loop. -/
def main_startup (env : Env) (fuel : Nat) (st : State) : Option State :=
  match os_write env fuel msg_starting st with
  | none => none
  | some st1 =>
    match os_write env fuel msg_timer_initialized (timer_init st1) with
    | none => none
    | some st2 =>
      match os_write env fuel msg_enabling st2 with
      | none => none
      | some st3 => os_write env fuel msg_irqs_enabled (enable_irq st3)

/-- One pass through the body of the `while (1)` loop of `main`: draw
`rand() % 1000` and print it.  The delay loop that follows counts a local
variable and accesses no register, so it leaves the state as it is.  `buf` is
the indeterminate content of the local array of this call of `uart_putnum`. -/
def main_iteration (env : Env) (fuel : Nat) (buf : Nat → Nat) (st : State) : Option State :=
  let r := rand st
  let random_num := r.1 % 1000
  uart_putnum env fuel buf random_num r.2

/-- The first `n` passes through the `while (1)` loop of `main`: `n` passes
are `n - 1` passes followed by one more. -/
def main_loop (env : Env) (fuel : Nat) (bufs : Nat → Nat → Nat) : Nat → State → Option State
  | 0, st => some st
  | n + 1, st =>
    match main_loop env fuel bufs n st with
    | none => none
    | some st1 => main_iteration env fuel (bufs n) st1

/-- Function `main`, which never returns, observed up to the end of the
`n`-th pass through its loop. -/
def main (env : Env) (fuel : Nat) (bufs : Nat → Nat → Nat) (n : Nat) (st : State) :
    Option State :=
  match main_startup env fuel st with
  | none => none
  | some st1 => main_loop env fuel bufs n st1

/-! ## Vocabulary for stating results -/

/-- All sufficiently large poll bounds make `f` return `r`. -/
def RunsTo {α : Type} (f : Nat → Option α) (r : α) : Prop :=
  ∃ F, ∀ fuel, F ≤ fuel → f fuel = some r

/-- The transmitter is always eventually ready: after any number of reads of
`UART_LSR` a later read has `THRE` set. -/
def TxEventuallyReady (env : Env) : Prop :=
  ∀ k, ∃ j, k ≤ j ∧ env UART_LSR j % 2 ^ 32 &&& UART_LSR_THRE ≠ 0

/-- The receiver always eventually has data: after any number of reads of
`UART_LSR` a later read has `RXFE` clear. -/
def RxEventuallyReady (env : Env) : Prop :=
  ∀ k, ∃ j, k ≤ j ∧ env UART_LSR j % 2 ^ 32 &&& UART_LSR_RXFE = 0

/-- The state after performing the further accesses `evs`. -/
def State.extend (st : State) (evs : List Event) : State :=
  { st with trace := st.trace ++ evs }

/-- A read of the line-status register. -/
def isPoll (e : Event) : Bool :=
  match e with
  | Event.get a _ => decide (a = UART_LSR)
  | _ => false

/-- An access a polled transmission may perform: a read of `UART_LSR` or a
write of `UART_THR`. -/
def isTx (e : Event) : Bool :=
  match e with
  | Event.get a _ => decide (a = UART_LSR)
  | Event.put a _ => decide (a = UART_THR)
  | Event.irq => false

/-- The values written to `UART_THR`, in order. -/
def txBytes (tr : List Event) : List Nat :=
  tr.filterMap (fun e => match e with
    | Event.put a v => if a = UART_THR then some v else none
    | _ => none)

/-- The accesses `evs` are a polled transmission of exactly `bytes`: nothing
but line-status reads and transmit-register writes, the latter carrying
`bytes` in order. -/
def Transmits (evs : List Event) (bytes : List Nat) : Prop :=
  (∀ e ∈ evs, isTx e = true) ∧ txBytes evs = bytes

instance (evs : List Event) (bytes : List Nat) : Decidable (Transmits evs bytes) := by
  unfold Transmits
  infer_instance

/-- A hardware whose UART is ready at every poll (`THRE` set, `RXFE` clear)
and whose receive register always holds `'a'`. -/
def envReady : Env := fun a _ => if a = UART_LSR then 0x20 else 0x61

/-- The value the next read of the receive register returns in `st`. -/
def rxWord (env : Env) (st : State) : Nat :=
  env UART_THR (readCount UART_THR st.trace) % 2 ^ 32

/-- Write-one-to-clear model of the timer status register: a write of `v` to
`TISR` clears the status bits that are set in `v` and keeps the others; no
other access of the program changes the status. -/
def tisr_after (status : Nat) (evs : List Event) : Nat :=
  evs.foldl (fun s e => match e with
    | Event.put a v => if a = TISR then s &&& (0xFFFFFFFF ^^^ v) else s
    | _ => s) status

/-- The addresses read by the accesses `evs`. -/
def readAddrs (evs : List Event) : List Nat :=
  evs.filterMap (fun e => match e with
    | Event.get a _ => some a
    | _ => none)

/-- The canonical decimal numeral of `n`, most significant digit first, as
ASCII codes. -/
def decimal (n : Nat) : List Nat :=
  (Nat.digits 10 n).reverse.map (fun d => d + 48)

/-- Reading a list of ASCII digits as an unsigned decimal integer. -/
def parse_decimal (cs : List Nat) : Nat :=
  cs.foldl (fun acc c => 10 * acc + (c - 48)) 0

/-- The content of `buf[0..i)` from index `i - 1` down to index `0`. -/
def bufRev (buf : Nat → Nat) : Nat → List Nat
  | 0 => []
  | i + 1 => buf i :: bufRev buf i

/-- The `j`-th character that `uart_getc` delivers from state `st` on: the low
8 bits of the `j`-th further read of the receive register. -/
def input (env : Env) (st : State) (j : Nat) : Nat :=
  (env UART_THR (readCount UART_THR st.trace + j) % 2 ^ 32 &&& 0xFF) % 256

/-- Storing the characters `cs` at consecutive indices from `i` on. -/
def storeList (b : Buffer) : Nat → List Nat → Buffer
  | _, [] => b
  | i, c :: cs => storeList (b.store i c) (i + 1) cs

/-- An access of the polled UART: a read of the line status or of the receive
register, or a write of the transmit register. -/
def isUart (e : Event) : Bool :=
  match e with
  | Event.get a _ => decide (a = UART_LSR ∨ a = UART_THR)
  | Event.put a _ => decide (a = UART_THR)
  | Event.irq => false

/-- The line-status reads number `k`, `k + 1`, ..., `k + n - 1` as events. -/
def lsrReads (env : Env) (k n : Nat) : List Event :=
  (List.range n).map (fun i => Event.get UART_LSR (env UART_LSR (k + i) % 2 ^ 32))

/-- A hardware whose UART is ready at every poll and whose receive register
always holds `'\n'`. -/
def envNewline : Env := fun a _ => if a = UART_LSR then 0x20 else 0x0A

/-- A hardware whose UART is busy in both directions at the first two polls
(`THRE` clear, `RXFE` set) and ready from the third poll on, and whose receive
register holds `0x12345661`. -/
def envSlow : Env := fun a k =>
  if a = UART_LSR then (if k < 2 then 0x10 else 0x20) else 0x12345661

/-- Address of the interrupt-controller line register `ILR_m` of interrupt
line `m`: the line registers lie at offset `0x100 + 4*m` from `INTCPS_BASE`. -/
def INTC_ILR (m : Nat) : Nat := INTCPS_BASE + 0x100 + 4 * m

/-- The values written to the register at `addr`, in order. -/
def writesTo (addr : Nat) (evs : List Event) : List Nat :=
  evs.filterMap (fun e => match e with
    | Event.put a v => if a = addr then some v else none
    | _ => none)

/-- The canonical decimal text of `n`: `"0"` for zero, otherwise the digits
without leading zero. -/
def decimalText (n : Nat) : List Nat :=
  if n = 0 then [48] else decimal n

/-- The sequence of the claim: `lcg s 0 = s` and
`lcg s (k + 1) = (lcg s k * 1103515245 + 12345) mod 2^31`. -/
def lcg (s : Nat) : Nat → Nat
  | 0 => s
  | k + 1 => (lcg s k * 1103515245 + 12345) % 2 ^ 31

/-- The nine register writes of `timer_init`, in order. -/
def timer_init_writes : List Event :=
  [Event.put CM_PER_TIMER2_CLKCTRL 0x2, Event.put INTC_MIR_CLEAR2 0x10,
   Event.put INTC_ILR68 0x0, Event.put TCLR 0x0, Event.put TISR 0x7,
   Event.put TLDR 0xFE91CA00, Event.put TCRR 0xFE91CA00, Event.put TIER 0x2,
   Event.put TCLR 0x3]

/-! ## Basic facts about the machine model -/

theorem int_sub_one_eq {x : Int} (h : -2147483648 < x) : int_sub_one x = x - 1 := by
  unfold int_sub_one
  rw [if_neg (by omega)]

theorem int_sub_one_min : int_sub_one (-2147483648) = 2147483647 := by
  decide

theorem readCount_append (a : Nat) (xs ys : List Event) :
    readCount a (xs ++ ys) = readCount a xs + readCount a ys := by
  simp [readCount, List.countP_append]

theorem readCount_get_self (a v : Nat) : readCount a [Event.get a v] = 1 := by
  simp [readCount]

theorem readCount_get_other {a b : Nat} (v : Nat) (h : b ≠ a) :
    readCount a [Event.get b v] = 0 := by
  simp [readCount, h]

theorem readCount_put (a b v : Nat) : readCount a [Event.put b v] = 0 := by
  simp [readCount]

theorem GET32_fst (env : Env) (a : Nat) (st : State) :
    (GET32 env a st).1 = env a (readCount a st.trace) % 2 ^ 32 := rfl

theorem GET32_snd (env : Env) (a : Nat) (st : State) :
    (GET32 env a st).2 =
      st.extend [Event.get a (env a (readCount a st.trace) % 2 ^ 32)] := rfl

theorem PUT32_eq (a v : Nat) (st : State) :
    PUT32 a v st = st.extend [Event.put a (v % 2 ^ 32)] := rfl

theorem extend_extend (st : State) (xs ys : List Event) :
    (st.extend xs).extend ys = st.extend (xs ++ ys) := by
  simp [State.extend]

theorem extend_nil (st : State) : st.extend [] = st := by
  simp [State.extend]

theorem extend_trace (st : State) (xs : List Event) :
    (st.extend xs).trace = st.trace ++ xs := rfl

theorem extend_seed (st : State) (xs : List Event) :
    (st.extend xs).seed = st.seed := rfl

theorem readCount_polls {evs : List Event} (h : ∀ e ∈ evs, isPoll e = true) :
    readCount UART_THR evs = 0 := by
  induction evs with
  | nil => rfl
  | cons e es ih =>
    have he := h e (List.mem_cons_self _ _)
    have hes := ih (fun x hx => h x (List.mem_cons_of_mem _ hx))
    cases e with
    | get a v =>
      have ha : a = UART_LSR := by simpa [isPoll] using he
      subst ha
      have hsplit : readCount UART_THR (Event.get UART_LSR v :: es) =
          readCount UART_THR [Event.get UART_LSR v] + readCount UART_THR es :=
        readCount_append UART_THR [Event.get UART_LSR v] es
      rw [hsplit, hes, readCount_get_other v (by decide)]
    | put a v => simp [isPoll] at he
    | irq => simp [isPoll] at he

theorem envReady_tx : TxEventuallyReady envReady := by
  intro k
  exact ⟨k, le_rfl, by simp [envReady, UART_LSR_THRE]⟩

theorem envReady_rx : RxEventuallyReady envReady := by
  intro k
  refine ⟨k, le_rfl, ?_⟩
  simp only [envReady, UART_LSR_RXFE, if_true]
  decide

/-! ## The busy-wait loops -/

/-- If `THRE` is seen set within `d + 1` polls, `uart_putc` performs some
polls and then the single write of `c`. -/
theorem uart_putc_steps (env : Env) (c : Nat) : ∀ (d : Nat) (st : State),
    (∃ j, readCount UART_LSR st.trace ≤ j ∧ j ≤ readCount UART_LSR st.trace + d ∧
      env UART_LSR j % 2 ^ 32 &&& UART_LSR_THRE ≠ 0) →
    ∃ evs, (∀ e ∈ evs, isPoll e = true) ∧ ∀ fuel, d + 1 ≤ fuel →
      uart_putc env fuel c st =
        some (st.extend (evs ++ [Event.put UART_THR (c % 256)])) := by
  intro d
  induction d with
  | zero =>
    rintro st ⟨j, h1, h2, h3⟩
    have hj : j = readCount UART_LSR st.trace := by omega
    subst hj
    refine ⟨[Event.get UART_LSR (env UART_LSR (readCount UART_LSR st.trace) % 2 ^ 32)],
      ?_, ?_⟩
    · intro e he
      rw [List.mem_singleton] at he
      subst he
      simp [isPoll]
    · intro fuel hf
      obtain ⟨f, rfl⟩ : ∃ f, fuel = f + 1 := ⟨fuel - 1, by omega⟩
      rw [uart_putc]
      rw [if_neg (by rw [GET32_fst]; exact h3), GET32_snd, PUT32_eq, extend_extend]
      have hc : c % 256 % 2 ^ 32 = c % 256 := Nat.mod_eq_of_lt (by omega)
      rw [hc]
  | succ d ih =>
    rintro st ⟨j, h1, h2, h3⟩
    by_cases h0 : env UART_LSR (readCount UART_LSR st.trace) % 2 ^ 32 &&& UART_LSR_THRE = 0
    · have hne : j ≠ readCount UART_LSR st.trace := by
        intro hj
        rw [hj] at h3
        exact h3 h0
      have hc : readCount UART_LSR (GET32 env UART_LSR st).2.trace =
          readCount UART_LSR st.trace + 1 := by
        rw [GET32_snd, extend_trace, readCount_append, readCount_get_self]
      obtain ⟨evs, hp, hr⟩ := ih (GET32 env UART_LSR st).2 ⟨j, by omega, by omega, h3⟩
      refine ⟨Event.get UART_LSR (env UART_LSR (readCount UART_LSR st.trace) % 2 ^ 32) :: evs,
        ?_, ?_⟩
      · intro e he
        rcases List.mem_cons.1 he with rfl | he
        · simp [isPoll]
        · exact hp e he
      · intro fuel hf
        obtain ⟨f, rfl⟩ : ∃ f, fuel = f + 1 := ⟨fuel - 1, by omega⟩
        rw [uart_putc]
        rw [if_pos (by rw [GET32_fst]; exact h0), hr f (by omega), GET32_snd, extend_extend]
        rfl
    · obtain ⟨evs, hp, hr⟩ := ih st ⟨readCount UART_LSR st.trace, le_rfl, by omega, h0⟩
      exact ⟨evs, hp, fun fuel hf => hr fuel (by omega)⟩

theorem uart_getc_steps (env : Env) : ∀ (d : Nat) (st : State),
    (∃ j, readCount UART_LSR st.trace ≤ j ∧ j ≤ readCount UART_LSR st.trace + d ∧
      env UART_LSR j % 2 ^ 32 &&& UART_LSR_RXFE = 0) →
    ∃ evs, (∀ e ∈ evs, isPoll e = true) ∧ ∀ fuel, d + 1 ≤ fuel →
      uart_getc env fuel st =
        some ((rxWord env st &&& 0xFF) % 256,
          st.extend (evs ++ [Event.get UART_THR (rxWord env st)])) := by
  intro d
  induction d with
  | zero =>
    rintro st ⟨j, h1, h2, h3⟩
    have hj : j = readCount UART_LSR st.trace := by omega
    subst hj
    refine ⟨[Event.get UART_LSR (env UART_LSR (readCount UART_LSR st.trace) % 2 ^ 32)],
      ?_, ?_⟩
    · intro e he
      rw [List.mem_singleton] at he
      subst he
      simp [isPoll]
    · intro fuel hf
      obtain ⟨f, rfl⟩ : ∃ f, fuel = f + 1 := ⟨fuel - 1, by omega⟩
      have hrc : readCount UART_THR (GET32 env UART_LSR st).2.trace =
          readCount UART_THR st.trace := by
        rw [GET32_snd, extend_trace, readCount_append,
          readCount_get_other _ (by decide : UART_LSR ≠ UART_THR)]
        rfl
      rw [uart_getc]
      rw [if_neg (by rw [GET32_fst]; exact not_not.2 h3)]
      simp only [GET32_fst, hrc]
      rw [GET32_snd (a := UART_THR), hrc, GET32_snd, extend_extend]
      rfl
  | succ d ih =>
    rintro st ⟨j, h1, h2, h3⟩
    by_cases h0 : env UART_LSR (readCount UART_LSR st.trace) % 2 ^ 32 &&& UART_LSR_RXFE = 0
    · obtain ⟨evs, hp, hr⟩ := ih st ⟨readCount UART_LSR st.trace, le_rfl, by omega, h0⟩
      exact ⟨evs, hp, fun fuel hf => hr fuel (by omega)⟩
    · have hne : j ≠ readCount UART_LSR st.trace := by
        intro hj
        rw [hj] at h3
        exact h0 h3
      have hc : readCount UART_LSR (GET32 env UART_LSR st).2.trace =
          readCount UART_LSR st.trace + 1 := by
        rw [GET32_snd, extend_trace, readCount_append, readCount_get_self]
      have hrc : rxWord env (GET32 env UART_LSR st).2 = rxWord env st := by
        unfold rxWord
        rw [GET32_snd, extend_trace, readCount_append,
          readCount_get_other _ (by decide : UART_LSR ≠ UART_THR)]
        rfl
      obtain ⟨evs, hp, hr⟩ := ih (GET32 env UART_LSR st).2 ⟨j, by omega, by omega, h3⟩
      refine ⟨Event.get UART_LSR (env UART_LSR (readCount UART_LSR st.trace) % 2 ^ 32) :: evs,
        ?_, ?_⟩
      · intro e he
        rcases List.mem_cons.1 he with rfl | he
        · simp [isPoll]
        · exact hp e he
      · intro fuel hf
        obtain ⟨f, rfl⟩ : ∃ f, fuel = f + 1 := ⟨fuel - 1, by omega⟩
        rw [uart_getc]
        rw [if_pos (by rw [GET32_fst]; exact h0), hr f (by omega), hrc, GET32_snd,
          extend_extend]
        rfl

/-- With an eventually ready transmitter `uart_putc` returns, having polled
and then written `c` once. -/
theorem uart_putc_runs (env : Env) (h : TxEventuallyReady env) (c : Nat) (st : State) :
    ∃ evs, (∀ e ∈ evs, isPoll e = true) ∧
      RunsTo (fun fuel => uart_putc env fuel c st)
        (st.extend (evs ++ [Event.put UART_THR (c % 256)])) := by
  obtain ⟨j, hj, hr⟩ := h (readCount UART_LSR st.trace)
  obtain ⟨evs, hp, hrun⟩ := uart_putc_steps env c (j - readCount UART_LSR st.trace) st
    ⟨j, hj, by omega, hr⟩
  exact ⟨evs, hp, _, hrun⟩

theorem uart_getc_runs (env : Env) (h : RxEventuallyReady env) (st : State) :
    ∃ evs, (∀ e ∈ evs, isPoll e = true) ∧
      RunsTo (fun fuel => uart_getc env fuel st)
        ((rxWord env st &&& 0xFF) % 256,
          st.extend (evs ++ [Event.get UART_THR (rxWord env st)])) := by
  obtain ⟨j, hj, hr⟩ := h (readCount UART_LSR st.trace)
  obtain ⟨evs, hp, hrun⟩ := uart_getc_steps env (j - readCount UART_LSR st.trace) st
    ⟨j, hj, by omega, hr⟩
  exact ⟨evs, hp, _, hrun⟩

theorem isTx_of_isPoll {e : Event} (h : isPoll e = true) : isTx e = true := by
  cases e <;> simp_all [isPoll, isTx]

theorem txBytes_append (xs ys : List Event) : txBytes (xs ++ ys) = txBytes xs ++ txBytes ys := by
  simp [txBytes, List.filterMap_append]

theorem txBytes_polls {evs : List Event} (h : ∀ e ∈ evs, isPoll e = true) :
    txBytes evs = [] := by
  unfold txBytes
  rw [List.filterMap_eq_nil_iff]
  intro e he
  have := h e he
  cases e <;> simp_all [isPoll]

theorem Transmits.nil : Transmits [] [] := ⟨by simp, rfl⟩

theorem Transmits.append {xs ys : List Event} {a b : List Nat}
    (hx : Transmits xs a) (hy : Transmits ys b) : Transmits (xs ++ ys) (a ++ b) := by
  refine ⟨?_, ?_⟩
  · intro e he
    rcases List.mem_append.1 he with he | he
    · exact hx.1 e he
    · exact hy.1 e he
  · rw [txBytes_append, hx.2, hy.2]

theorem Transmits.putc {evs : List Event} (h : ∀ e ∈ evs, isPoll e = true) (v : Nat) :
    Transmits (evs ++ [Event.put UART_THR v]) [v] := by
  refine ⟨?_, ?_⟩
  · intro e he
    rcases List.mem_append.1 he with he | he
    · exact isTx_of_isPoll (h e he)
    · rw [List.mem_singleton] at he
      subst he
      simp [isTx]
  · rw [txBytes_append, txBytes_polls h]
    simp [txBytes]

/-- The transmitting form of `uart_putc_runs`. -/
theorem uart_putc_transmits (env : Env) (h : TxEventuallyReady env) (c : Nat) (st : State) :
    ∃ evs, Transmits evs [c % 256] ∧
      RunsTo (fun fuel => uart_putc env fuel c st) (st.extend evs) := by
  obtain ⟨evs, hp, hrun⟩ := uart_putc_runs env h c st
  exact ⟨_, Transmits.putc hp _, hrun⟩

/-- The loop of `os_write` transmits the bytes before the first zero byte; when
there is none to transmit it performs no access at all. -/
theorem os_write_transmits (env : Env) (h : TxEventuallyReady env) :
    ∀ (s : List Nat) (st : State), (∀ c ∈ s, c < 256) →
    ∃ evs, Transmits evs (s.takeWhile (fun c => decide (c ≠ 0))) ∧
      (s.takeWhile (fun c => decide (c ≠ 0)) = [] → evs = []) ∧
      RunsTo (fun fuel => os_write env fuel s st) (st.extend evs) := by
  intro s
  induction s with
  | nil =>
    intro st _
    exact ⟨[], Transmits.nil, fun _ => rfl, 0, fun fuel _ => by
      show os_write env fuel [] st = _
      rw [os_write, extend_nil]⟩
  | cons c s ih =>
    intro st hb
    by_cases hc : c = 0
    · refine ⟨[], ?_, fun _ => rfl, 0, fun fuel _ => ?_⟩
      · simp [hc, Transmits.nil]
      · show os_write env fuel (c :: s) st = _
        rw [os_write, if_pos hc, extend_nil]
    · obtain ⟨e1, ht1, F1, h1⟩ := uart_putc_transmits env h c st
      obtain ⟨e2, ht2, -, F2, h2⟩ :=
        ih (st.extend e1) (fun x hx => hb x (List.mem_cons_of_mem _ hx))
      refine ⟨e1 ++ e2, ?_, ?_, max F1 F2, fun fuel hf => ?_⟩
      · have hlt : c % 256 = c := Nat.mod_eq_of_lt (hb c (List.mem_cons_self _ _))
        rw [hlt] at ht1
        have := Transmits.append ht1 ht2
        simpa [hc] using this
      · intro hnil
        simp [hc] at hnil
      · have r1 : uart_putc env fuel c st = some (st.extend e1) :=
          h1 fuel (le_trans (le_max_left _ _) hf)
        have r2 : os_write env fuel s (st.extend e1) = some ((st.extend e1).extend e2) :=
          h2 fuel (le_trans (le_max_right _ _) hf)
        show os_write env fuel (c :: s) st = _
        rw [os_write, if_neg hc, r1]
        show os_write env fuel s (st.extend e1) = _
        rw [r2, extend_extend]

/-! ## Results about the program -/

/-- C3: for every seed value, one call of `rand` stores in `seed`, and
returns, `(seed * 1103515245 + 12345) mod 2^31` computed over the unbounded
integers, although the code wraps at 32 bits and masks with `0x7fffffff`; the
trace is untouched, the returned value is below `2^31`, and from the initial
seed 12345 the first call returns `(12345*1103515245+12345) mod 2^31`. -/
theorem rand_exact (st : State) :
    rand st = ((st.seed * 1103515245 + 12345) % 2 ^ 31,
      { trace := st.trace, seed := (st.seed * 1103515245 + 12345) % 2 ^ 31 }) ∧
    (rand st).1 < 2 ^ 31 ∧
    (rand State.init).1 = (12345 * 1103515245 + 12345) % 2 ^ 31 := by
  have key : ∀ s : Nat, ((s * 1103515245 % 2 ^ 32 + 12345) % 2 ^ 32) &&& 0x7fffffff =
      (s * 1103515245 + 12345) % 2 ^ 31 := by
    intro s
    have hmask : (0x7fffffff : Nat) = 2 ^ 31 - 1 := by norm_num
    rw [hmask, Nat.and_pow_two_sub_one_eq_mod]
    omega
  refine ⟨?_, ?_, ?_⟩
  · simp only [rand, key]
  · simp only [rand, key]
    exact Nat.mod_lt _ (by norm_num)
  · simp only [rand, key, State.init]

/-- C7: for a byte string `s` stored in memory (a zero byte following it) and
an eventually ready transmitter, `os_write` returns; its accesses are polls of
the line status and writes of the transmit register only, the values written
being exactly the bytes of `s` before its first zero byte, once each and in
order; no zero byte is transmitted, and when there is nothing before the
first zero byte (the empty string) it makes no access at all. -/
theorem os_write_exact (env : Env) (h : TxEventuallyReady env) (s : List Nat)
    (hs : ∀ c ∈ s, c < 256) (st : State) :
    ∃ evs, RunsTo (fun fuel => os_write env fuel s st) (st.extend evs) ∧
      Transmits evs (s.takeWhile (fun c => decide (c ≠ 0))) ∧
      0 ∉ txBytes evs ∧
      (s.takeWhile (fun c => decide (c ≠ 0)) = [] → evs = []) := by
  obtain ⟨evs, ht, hnil, hrun⟩ := os_write_transmits env h s st hs
  refine ⟨evs, hrun, ht, ?_, hnil⟩
  rw [ht.2]
  intro h0
  have := List.mem_takeWhile_imp h0
  simp at this

/-- Witness for C7: `"Tick\n"` on the always-ready hardware. -/
theorem os_write_exact_witness :
    TxEventuallyReady envReady ∧ (∀ c ∈ tick, c < 256) ∧
    ∃ evs, RunsTo (fun fuel => os_write envReady fuel tick State.init)
        (State.init.extend evs) ∧
      Transmits evs (tick.takeWhile (fun c => decide (c ≠ 0))) ∧
      0 ∉ txBytes evs ∧
      (tick.takeWhile (fun c => decide (c ≠ 0)) = [] → evs = []) :=
  ⟨envReady_tx, by decide,
    os_write_exact envReady envReady_tx tick (by decide) State.init⟩

/-- C8: `timer_init` performs exactly nine register writes and no read, in
the order `CM_PER_TIMER2_CLKCTRL <- 0x2`, `INTC_MIR_CLEAR2 <- 0x10`,
`INTC_ILR68 <- 0x0`, `TCLR <- 0x0`, `TISR <- 0x7`, `TLDR <- 0xFE91CA00`,
`TCRR <- 0xFE91CA00`, `TIER <- 0x2`, `TCLR <- 0x3`, and leaves `seed` alone.
So the timer is stopped (4th write) before load, counter and interrupt enable
are programmed (6th to 8th), counter and reload register receive the same
value, and the last write sets both the start bit (bit 0) and the auto-reload
bit (bit 1) of `TCLR`. -/
theorem timer_init_trace (st : State) :
    timer_init st = st.extend
      [Event.put CM_PER_TIMER2_CLKCTRL 0x2, Event.put INTC_MIR_CLEAR2 0x10,
       Event.put INTC_ILR68 0x0, Event.put TCLR 0x0, Event.put TISR 0x7,
       Event.put TLDR 0xFE91CA00, Event.put TCRR 0xFE91CA00, Event.put TIER 0x2,
       Event.put TCLR 0x3] ∧
    (timer_init st).seed = st.seed ∧
    (timer_init st).trace.length = st.trace.length + 9 ∧
    (timer_init st).trace.drop st.trace.length =
      [Event.put 0x44E00080 0x2, Event.put 0x482000C8 0x10, Event.put 0x48200110 0x0,
       Event.put 0x48040038 0x0, Event.put 0x48040028 0x7, Event.put 0x48040040 0xFE91CA00,
       Event.put 0x4804003C 0xFE91CA00, Event.put 0x4804002C 0x2, Event.put 0x48040038 0x3] ∧
    (0x3 : Nat) &&& 0x1 = 0x1 ∧ (0x3 : Nat) &&& 0x2 = 0x2 := by
  have hrun : timer_init st = st.extend
      [Event.put CM_PER_TIMER2_CLKCTRL 0x2, Event.put INTC_MIR_CLEAR2 0x10,
       Event.put INTC_ILR68 0x0, Event.put TCLR 0x0, Event.put TISR 0x7,
       Event.put TLDR 0xFE91CA00, Event.put TCRR 0xFE91CA00, Event.put TIER 0x2,
       Event.put TCLR 0x3] := by
    simp only [timer_init, PUT32_eq, extend_extend]
    rfl
  refine ⟨hrun, ?_, ?_, ?_, by decide, by decide⟩
  · rw [hrun, extend_seed]
  · rw [hrun, extend_trace, List.length_append]
    rfl
  · rw [hrun, extend_trace, List.drop_left]
    rfl

theorem tisr_after_append (s : Nat) (xs ys : List Event) :
    tisr_after s (xs ++ ys) = tisr_after (tisr_after s xs) ys := by
  simp [tisr_after, List.foldl_append]

theorem tisr_after_tx {evs : List Event} (h : ∀ e ∈ evs, isTx e = true) (s : Nat) :
    tisr_after s evs = s := by
  induction evs generalizing s with
  | nil => rfl
  | cons e es ih =>
    have he := h e (List.mem_cons_self _ _)
    have hes := ih (fun x hx => h x (List.mem_cons_of_mem _ hx))
    cases e with
    | get a v => exact hes s
    | put a v =>
      have ha : a = UART_THR := by simpa [isTx] using he
      subst ha
      have : tisr_after s (Event.put UART_THR v :: es) = tisr_after s es := by
        simp [tisr_after, UART_THR, TISR, UART0_BASE, DMTIMER2_BASE]
      rw [this]
      exact hes s
    | irq => exact hes s

theorem readAddrs_tx {evs : List Event} (h : ∀ e ∈ evs, isTx e = true) :
    ∀ a ∈ readAddrs evs, a = UART_LSR := by
  intro a ha
  simp only [readAddrs, List.mem_filterMap] at ha
  obtain ⟨e, he, hea⟩ := ha
  have := h e he
  cases e with
  | get b v =>
    simp only [Option.some.injEq] at hea
    subst hea
    simpa [isTx] using this
  | put b v => simp at hea
  | irq => simp at hea

theorem timer_irq_handler_eq (env : Env) (fuel : Nat) (st : State) :
    timer_irq_handler env fuel st =
      os_write env fuel tick (st.extend [Event.put TISR 0x2, Event.put INTC_CONTROL 0x1]) := by
  simp only [timer_irq_handler, PUT32_eq, extend_extend]
  rfl

/-- Shape of one run of `timer_irq_handler`. -/
theorem timer_irq_handler_runs (env : Env) (h : TxEventuallyReady env) (st : State) :
    ∃ evs, Transmits evs tick ∧
      RunsTo (fun fuel => timer_irq_handler env fuel st)
        (st.extend (Event.put TISR 0x2 :: Event.put INTC_CONTROL 0x1 :: evs)) := by
  obtain ⟨evs, ht, -, F, hrun⟩ := os_write_transmits env h tick
    (st.extend [Event.put TISR 0x2, Event.put INTC_CONTROL 0x1]) (by decide)
  refine ⟨evs, ?_, F, fun fuel hf => ?_⟩
  · simpa [tick] using ht
  · have r : os_write env fuel tick
        (st.extend [Event.put TISR 0x2, Event.put INTC_CONTROL 0x1]) = _ := hrun fuel hf
    rw [extend_extend] at r
    show timer_irq_handler env fuel st = _
    rw [timer_irq_handler_eq, r]
    rfl

/-- C9: with an eventually ready transmitter every invocation of
`timer_irq_handler` returns after exactly: the write `TISR <- 0x2`, the write
`INTC_CONTROL <- 0x1`, and then a polled transmission (line-status reads and
transmit-register writes only) of exactly the five bytes `"Tick\\n"`.  Under
the write-one-to-clear model the status afterwards is the old one with bit 1
(overflow) cleared and every other bit unchanged. -/
theorem timer_irq_handler_exact (env : Env) (h : TxEventuallyReady env) (st : State) :
    ∃ evs, RunsTo (fun fuel => timer_irq_handler env fuel st)
        (st.extend (Event.put TISR 0x2 :: Event.put INTC_CONTROL 0x1 :: evs)) ∧
      Transmits evs [84, 105, 99, 107, 10] ∧
      (∀ a ∈ readAddrs evs, a = UART_LSR) ∧
      ∀ status, status < 2 ^ 32 →
        tisr_after status (Event.put TISR 0x2 :: Event.put INTC_CONTROL 0x1 :: evs) &&& 0x2 = 0 ∧
        ∀ j, j ≠ 1 →
          (tisr_after status
            (Event.put TISR 0x2 :: Event.put INTC_CONTROL 0x1 :: evs)).testBit j =
          status.testBit j := by
  obtain ⟨evs, ht, hrun⟩ := timer_irq_handler_runs env h st
  refine ⟨evs, hrun, ht, readAddrs_tx ht.1, ?_⟩
  intro status hlt
  have hst : tisr_after status (Event.put TISR 0x2 :: Event.put INTC_CONTROL 0x1 :: evs) =
      status &&& 0xFFFFFFFD := by
    have h2 : tisr_after status [Event.put TISR 0x2, Event.put INTC_CONTROL 0x1] =
        status &&& 0xFFFFFFFD := by
      simp [tisr_after, TISR, INTC_CONTROL, DMTIMER2_BASE, INTCPS_BASE]
    have := tisr_after_append status [Event.put TISR 0x2, Event.put INTC_CONTROL 0x1] evs
    simp only [List.cons_append, List.nil_append] at this
    rw [this, h2, tisr_after_tx ht.1]
  rw [hst]
  refine ⟨?_, ?_⟩
  · have hmask : (0xFFFFFFFD : Nat) &&& 0x2 = 0 := by decide
    rw [Nat.and_assoc, hmask, Nat.and_zero]
  · intro j hj
    rw [Nat.testBit_and]
    by_cases hj32 : j < 32
    · have : ∀ i < 32, i ≠ 1 → Nat.testBit 0xFFFFFFFD i = true := by decide
      rw [this j hj32 hj, Bool.and_true]
    · have hs : status.testBit j = false :=
        Nat.testBit_lt_two_pow (lt_of_lt_of_le hlt (Nat.pow_le_pow_right (by norm_num) (by omega)))
      rw [hs, Bool.false_and]

/-- Witness for C9: the handler on the always-ready hardware. -/
theorem timer_irq_handler_exact_witness :
    TxEventuallyReady envReady ∧
    ∃ evs, RunsTo (fun fuel => timer_irq_handler envReady fuel State.init)
        (State.init.extend (Event.put TISR 0x2 :: Event.put INTC_CONTROL 0x1 :: evs)) ∧
      Transmits evs [84, 105, 99, 107, 10] ∧
      (∀ a ∈ readAddrs evs, a = UART_LSR) ∧
      ∀ status, status < 2 ^ 32 →
        tisr_after status (Event.put TISR 0x2 :: Event.put INTC_CONTROL 0x1 :: evs) &&& 0x2 = 0 ∧
        ∀ j, j ≠ 1 →
          (tisr_after status
            (Event.put TISR 0x2 :: Event.put INTC_CONTROL 0x1 :: evs)).testBit j =
          status.testBit j :=
  ⟨envReady_tx, timer_irq_handler_exact envReady envReady_tx State.init⟩

theorem bufRev_update (buf : Nat → Nat) (v : Nat) : ∀ (i j : Nat), i ≤ j →
    bufRev (Function.update buf j v) i = bufRev buf i := by
  intro i
  induction i with
  | zero => intro j _; rfl
  | succ i ih =>
    intro j hj
    simp only [bufRev]
    rw [ih j (by omega), Function.update_noteq (by omega)]

/-- The digit loop on a number that fits the remaining slots: it ends with
`num = 0`, has advanced `i` by the number of decimal digits and has stored the
digits least significant first. -/
theorem uart_putnum_digits_spec : ∀ (num i : Nat) (buf : Nat → Nat),
    0 < num → num < 10 ^ (10 - i) →
    (uart_putnum_digits num i buf).1 = 0 ∧
    (uart_putnum_digits num i buf).2.1 = i + (Nat.digits 10 num).length ∧
    bufRev (uart_putnum_digits num i buf).2.2 (uart_putnum_digits num i buf).2.1 =
      decimal num ++ bufRev buf i := by
  intro num
  induction num using Nat.strong_induction_on with
  | _ num ih =>
    intro i buf hpos hlt
    have hi : i < 10 := by
      by_contra hge
      have : 10 - i = 0 := by omega
      rw [this] at hlt
      omega
    have hdig : Nat.digits 10 num = num % 10 :: Nat.digits 10 (num / 10) :=
      Nat.digits_def' (by norm_num) hpos
    have hchar : (num % 10 + 48) % 256 = num % 10 + 48 := by omega
    rw [uart_putnum_digits]
    simp only [hchar]
    by_cases hc : num / 10 > 0 ∧ i + 1 < 10
    · rw [if_pos hc]
      have hlt' : num / 10 < 10 ^ (10 - (i + 1)) := by
        have hpow : 10 ^ (10 - i) = 10 * 10 ^ (10 - (i + 1)) := by
          rw [← pow_succ']
          congr 1
          omega
        rw [hpow] at hlt
        omega
      obtain ⟨h1, h2, h3⟩ := ih (num / 10) (by omega) (i + 1)
        (Function.update buf i (num % 10 + 48)) hc.1 hlt'
      refine ⟨h1, ?_, ?_⟩
      · rw [h2, hdig, List.length_cons]
        omega
      · rw [h3]
        simp only [bufRev, Function.update_same, decimal]
        rw [bufRev_update _ _ _ _ le_rfl, hdig]
        simp
    · rw [if_neg hc]
      have hz : num / 10 = 0 := by
        by_contra hnz
        have h10 : 10 ≤ num := by omega
        have : i + 1 < 10 := by
          by_contra hge
          have hi9 : 10 - i = 1 := by omega
          rw [hi9] at hlt
          omega
        exact hc ⟨by omega, this⟩
      refine ⟨hz, ?_, ?_⟩
      · simp [hdig, hz]
      · simp only [bufRev, Function.update_same, decimal]
        rw [bufRev_update _ _ _ _ le_rfl, hdig, hz]
        simp

/-- The emit loop transmits `buf[i-1]`, ..., `buf[0]`. -/
theorem uart_putnum_emit_transmits (env : Env) (h : TxEventuallyReady env)
    (buf : Nat → Nat) : ∀ (i : Nat) (st : State),
    ∃ evs, Transmits evs ((bufRev buf i).map (fun c => c % 256)) ∧
      RunsTo (fun fuel => uart_putnum_emit env fuel i buf st) (st.extend evs) := by
  intro i
  induction i with
  | zero =>
    intro st
    exact ⟨[], Transmits.nil, 0, fun fuel _ => by
      show uart_putnum_emit env fuel 0 buf st = _
      rw [uart_putnum_emit, extend_nil]⟩
  | succ i ih =>
    intro st
    obtain ⟨e1, ht1, F1, h1⟩ := uart_putc_transmits env h (buf i) st
    obtain ⟨e2, ht2, F2, h2⟩ := ih (st.extend e1)
    refine ⟨e1 ++ e2, Transmits.append ht1 ht2, max F1 F2, fun fuel hf => ?_⟩
    have r1 : uart_putc env fuel (buf i) st = some (st.extend e1) :=
      h1 fuel (le_trans (le_max_left _ _) hf)
    have r2 : uart_putnum_emit env fuel i buf (st.extend e1) =
        some ((st.extend e1).extend e2) := h2 fuel (le_trans (le_max_right _ _) hf)
    show uart_putnum_emit env fuel (i + 1) buf st = _
    rw [uart_putnum_emit, r1]
    show uart_putnum_emit env fuel i buf (st.extend e1) = _
    rw [r2, extend_extend]

theorem decimal_digit {n c : Nat} (hc : c ∈ decimal n) : 48 ≤ c ∧ c ≤ 57 := by
  simp only [decimal, List.mem_map, List.mem_reverse] at hc
  obtain ⟨d, hd, rfl⟩ := hc
  have := Nat.digits_lt_base (by norm_num : 1 < 10) hd
  omega

theorem parse_decimal_decimal (n : Nat) : parse_decimal (decimal n) = n := by
  have key : ∀ ds : List Nat,
      List.foldl (fun acc c => 10 * acc + (c - 48)) 0 (ds.reverse.map (fun d => d + 48)) =
        Nat.ofDigits 10 ds := by
    intro ds
    induction ds with
    | nil => rfl
    | cons d ds ih =>
      rw [List.reverse_cons, List.map_append, List.foldl_append, ih, Nat.ofDigits_cons]
      simp
      omega
  unfold parse_decimal decimal
  rw [key, Nat.ofDigits_digits]

theorem decimal_head {n : Nat} (h : 0 < n) : (decimal n).head? ≠ some 48 := by
  have hne : Nat.digits 10 n ≠ [] := Nat.digits_ne_nil_iff_ne_zero.2 (by omega)
  have hlast := Nat.getLast_digit_ne_zero 10 (m := n) (by omega)
  unfold decimal
  rw [List.head?_map, List.head?_reverse, List.getLast?_eq_getLast _ hne]
  simp
  exact hlast

/-- C2: with an eventually ready transmitter `uart_putnum(0)` returns, and its
accesses are a polled transmission of exactly the two bytes `'0'` and
`'\\n'`, in that order. -/
theorem uart_putnum_zero (env : Env) (h : TxEventuallyReady env) (buf : Nat → Nat)
    (st : State) :
    ∃ evs, RunsTo (fun fuel => uart_putnum env fuel buf 0 st) (st.extend evs) ∧
      Transmits evs [48, 10] := by
  obtain ⟨e1, ht1, F1, h1⟩ := uart_putc_transmits env h 48 st
  obtain ⟨e2, ht2, F2, h2⟩ := uart_putc_transmits env h 10 (st.extend e1)
  refine ⟨e1 ++ e2, ⟨max F1 F2, fun fuel hf => ?_⟩, Transmits.append ht1 ht2⟩
  have r1 : uart_putc env fuel 48 st = some (st.extend e1) :=
    h1 fuel (le_trans (le_max_left _ _) hf)
  have r2 : uart_putc env fuel 10 (st.extend e1) = some ((st.extend e1).extend e2) :=
    h2 fuel (le_trans (le_max_right _ _) hf)
  show uart_putnum env fuel buf 0 st = _
  rw [uart_putnum, if_pos rfl, r1]
  show uart_putc env fuel 10 (st.extend e1) = _
  rw [r2, extend_extend]

/-- Witness for C2 on the always-ready hardware. -/
theorem uart_putnum_zero_witness :
    TxEventuallyReady envReady ∧
    ∃ evs, RunsTo (fun fuel => uart_putnum envReady fuel (fun _ => 0) 0 State.init)
        (State.init.extend evs) ∧
      Transmits evs [48, 10] :=
  ⟨envReady_tx, uart_putnum_zero envReady envReady_tx (fun _ => 0) State.init⟩

/-- C1: for `0 < n < 2^32`, an eventually ready transmitter and any initial
content of the local array, `uart_putnum(n)` returns, and its accesses are a
polled transmission of exactly the canonical decimal numeral of `n` (most
significant digit first) followed by one `'\\n'`.  The numeral is non-empty,
consists of ASCII digits, does not start with `'0'`, and read back as an
unsigned decimal integer it gives `n`. -/
theorem uart_putnum_pos (env : Env) (h : TxEventuallyReady env) (n : Nat)
    (h0 : 0 < n) (h32 : n < 2 ^ 32) (buf : Nat → Nat) (st : State) :
    ∃ evs, RunsTo (fun fuel => uart_putnum env fuel buf n st) (st.extend evs) ∧
      Transmits evs (decimal n ++ [10]) ∧
      decimal n ≠ [] ∧
      (∀ c ∈ decimal n, 48 ≤ c ∧ c ≤ 57) ∧
      (decimal n).head? ≠ some 48 ∧
      parse_decimal (decimal n) = n := by
  obtain ⟨hnum, hi, hbuf⟩ := uart_putnum_digits_spec n 0 buf h0
    (lt_of_lt_of_le h32 (by norm_num))
  obtain ⟨e1, ht1, F1, h1⟩ := uart_putnum_emit_transmits env h
    (uart_putnum_digits n 0 buf).2.2 (uart_putnum_digits n 0 buf).2.1 st
  obtain ⟨e2, ht2, F2, h2⟩ := uart_putc_transmits env h 10 (st.extend e1)
  have hbytes : (bufRev (uart_putnum_digits n 0 buf).2.2
      (uart_putnum_digits n 0 buf).2.1).map (fun c => c % 256) = decimal n := by
    rw [hbuf]
    simp only [bufRev, List.append_nil]
    rw [List.map_congr_left (g := id)]
    · simp
    · intro c hc
      have := decimal_digit hc
      simp only [id]
      omega
  rw [hbytes] at ht1
  refine ⟨e1 ++ e2, ⟨max F1 F2, fun fuel hf => ?_⟩, Transmits.append ht1 ht2, ?_,
    fun c hc => decimal_digit hc, decimal_head h0, parse_decimal_decimal n⟩
  · have r1 : uart_putnum_emit env fuel (uart_putnum_digits n 0 buf).2.1
        (uart_putnum_digits n 0 buf).2.2 st = some (st.extend e1) :=
      h1 fuel (le_trans (le_max_left _ _) hf)
    have r2 : uart_putc env fuel 10 (st.extend e1) = some ((st.extend e1).extend e2) :=
      h2 fuel (le_trans (le_max_right _ _) hf)
    show uart_putnum env fuel buf n st = _
    rw [uart_putnum, if_neg (by omega)]
    simp only []
    rw [r1]
    show uart_putc env fuel 10 (st.extend e1) = _
    rw [r2, extend_extend]
  · intro hnil
    have hlen := congrArg List.length hnil
    simp only [decimal, List.length_map, List.length_reverse, List.length_nil] at hlen
    have : Nat.digits 10 n ≠ [] := Nat.digits_ne_nil_iff_ne_zero.2 (by omega)
    exact this (List.length_eq_zero.1 hlen)

/-- Witness for C1: the largest 32-bit value on the always-ready hardware. -/
theorem uart_putnum_pos_witness :
    TxEventuallyReady envReady ∧ 0 < 4294967295 ∧ 4294967295 < 2 ^ 32 ∧
    ∃ evs, RunsTo (fun fuel => uart_putnum envReady fuel (fun _ => 0) 4294967295 State.init)
        (State.init.extend evs) ∧
      Transmits evs (decimal 4294967295 ++ [10]) ∧
      decimal 4294967295 ≠ [] ∧
      (∀ c ∈ decimal 4294967295, 48 ≤ c ∧ c ≤ 57) ∧
      (decimal 4294967295).head? ≠ some 48 ∧
      parse_decimal (decimal 4294967295) = 4294967295 :=
  ⟨envReady_tx, by decide, by decide,
    uart_putnum_pos envReady envReady_tx 4294967295 (by decide) (by decide)
      (fun _ => 0) State.init⟩

/-- Two invocations in a row: both return, and together they transmit
`"Tick\\n"` twice. -/
theorem timer_irq_handler_twice_runs (env : Env) (h : TxEventuallyReady env) (st : State) :
    ∃ st1 evs, RunsTo (fun fuel => timer_irq_handler env fuel st) st1 ∧
      RunsTo (fun fuel => timer_irq_handler env fuel st1) (st.extend evs) ∧
      txBytes evs = tick ++ tick ∧ TISR ∉ readAddrs evs := by
  obtain ⟨e1, ht1, hr1⟩ := timer_irq_handler_runs env h st
  obtain ⟨e2, ht2, hr2⟩ := timer_irq_handler_runs env h
    (st.extend (Event.put TISR 0x2 :: Event.put INTC_CONTROL 0x1 :: e1))
  refine ⟨_, (Event.put TISR 0x2 :: Event.put INTC_CONTROL 0x1 :: e1) ++
    (Event.put TISR 0x2 :: Event.put INTC_CONTROL 0x1 :: e2), hr1, ?_, ?_, ?_⟩
  · rw [← extend_extend]
    exact hr2
  · have hpre : ∀ evs : List Event,
        txBytes (Event.put TISR 0x2 :: Event.put INTC_CONTROL 0x1 :: evs) = txBytes evs := by
      intro evs
      simp [txBytes, TISR, INTC_CONTROL, UART_THR, DMTIMER2_BASE, INTCPS_BASE, UART0_BASE]
    rw [txBytes_append, hpre, hpre, ht1.2, ht2.2]
  · have hpre : ∀ evs : List Event,
        readAddrs (Event.put TISR 0x2 :: Event.put INTC_CONTROL 0x1 :: evs) = readAddrs evs := by
      intro evs
      simp [readAddrs]
    have happ : ∀ xs ys : List Event, readAddrs (xs ++ ys) = readAddrs xs ++ readAddrs ys := by
      intro xs ys
      simp [readAddrs, List.filterMap_append]
    rw [happ, hpre, hpre]
    intro hmem
    rcases List.mem_append.1 hmem with hm | hm
    · exact absurd (readAddrs_tx ht1.1 _ hm) (by decide)
    · exact absurd (readAddrs_tx ht2.1 _ hm) (by decide)

/-- C10, as amended: the handler never reads `TISR` and transmits
unconditionally, so two invocations in a row (eventually ready transmitter)
both return and together transmit `"Tick\\n"` twice. -/
theorem timer_irq_handler_twice (env : Env) (h : TxEventuallyReady env) (st : State) :
    ∃ st1 evs, RunsTo (fun fuel => timer_irq_handler env fuel st) st1 ∧
      RunsTo (fun fuel => timer_irq_handler env fuel st1) (st.extend evs) ∧
      txBytes evs = [84, 105, 99, 107, 10, 84, 105, 99, 107, 10] ∧
      TISR ∉ readAddrs evs := by
  obtain ⟨st1, evs, h1, h2, h3, h4⟩ := timer_irq_handler_twice_runs env h st
  exact ⟨st1, evs, h1, h2, by rw [h3]; rfl, h4⟩

/-- Witness for the amended C10 on the always-ready hardware. -/
theorem timer_irq_handler_twice_witness :
    TxEventuallyReady envReady ∧
    ∃ st1 evs, RunsTo (fun fuel => timer_irq_handler envReady fuel State.init) st1 ∧
      RunsTo (fun fuel => timer_irq_handler envReady fuel st1) (State.init.extend evs) ∧
      txBytes evs = [84, 105, 99, 107, 10, 84, 105, 99, 107, 10] ∧
      TISR ∉ readAddrs evs :=
  ⟨envReady_tx, timer_irq_handler_twice envReady envReady_tx State.init⟩

/-- C10 as stated fails: on the always-ready hardware, starting with the
overflow status bit set, the first invocation clears the bit (write-one-to-
clear) and transmits `"Tick\\n"`; the second invocation, made with the bit
still clear, transmits `"Tick\\n"` again, so the two together transmit it
twice and not once. -/
theorem timer_irq_handler_twice_counterexample :
    ∃ st1 st2, timer_irq_handler envReady 1 State.init = some st1 ∧
      timer_irq_handler envReady 1 st1 = some st2 ∧
      tisr_after 0x2 st1.trace &&& 0x2 = 0 ∧
      txBytes st1.trace = tick ∧
      txBytes st2.trace = tick ++ tick ∧
      txBytes st2.trace ≠ tick := by
  refine ⟨_, _, rfl, rfl, ?_, ?_, ?_, ?_⟩ <;> decide

theorem isUart_of_isTx {e : Event} (h : isTx e = true) : isUart e = true := by
  cases e <;> simp_all [isTx, isUart]

theorem input_lt (env : Env) (st : State) (j : Nat) : input env st j < 256 :=
  Nat.mod_lt _ (by norm_num)

theorem input_zero (env : Env) (st : State) :
    input env st 0 = (rxWord env st &&& 0xFF) % 256 := rfl

theorem input_shift (env : Env) (st : State) (evs : List Event)
    (h : readCount UART_THR evs = 1) (j : Nat) :
    input env (st.extend evs) j = input env st (j + 1) := by
  unfold input
  rw [extend_trace, readCount_append, h]
  congr 4
  omega

theorem readCount_tx {evs : List Event} (h : ∀ e ∈ evs, isTx e = true) :
    readCount UART_THR evs = 0 := by
  induction evs with
  | nil => rfl
  | cons e es ih =>
    have he := h e (List.mem_cons_self _ _)
    have hes := ih (fun x hx => h x (List.mem_cons_of_mem _ hx))
    have hsplit : readCount UART_THR (e :: es) = readCount UART_THR [e] + readCount UART_THR es :=
      readCount_append UART_THR [e] es
    rw [hsplit, hes]
    cases e with
    | get a v =>
      have ha : a = UART_LSR := by simpa [isTx] using he
      subst ha
      rw [readCount_get_other v (by decide)]
    | put a v => rw [readCount_put]
    | irq => rfl

/-- The loop of `os_read` with `r` iterations left before the bound: it stops
after `k ≤ r` accepted characters, `k < r` exactly when the `k`-th character
is a line terminator. -/
theorem os_read_loop_spec (env : Env) (htx : TxEventuallyReady env)
    (hrx : RxEventuallyReady env) (N : Int) :
    ∀ (r i : Nat) (b : Buffer) (st : State), (i : Int) + r = int_sub_one N →
    ∃ k evs, k ≤ r ∧
      (∀ j, j < k → input env st j ≠ 10 ∧ input env st j ≠ 13) ∧
      (k < r → input env st k = 10 ∨ input env st k = 13) ∧
      RunsTo (fun fuel => os_read_loop env fuel N i b st)
        (i + k, storeList b i ((List.range k).map (input env st)), st.extend evs) ∧
      txBytes evs = (List.range k).map (input env st) ++ (if k < r then [10] else []) ∧
      readCount UART_THR evs = (if k < r then k + 1 else k) ∧
      (∀ e ∈ evs, isUart e = true) := by
  intro r
  induction r with
  | zero =>
    intro i b st hi
    refine ⟨0, [], le_rfl, fun j hj => absurd hj (by omega), fun hk => absurd hk (by omega),
      ⟨0, fun fuel _ => ?_⟩, rfl, rfl, by simp⟩
    show os_read_loop env fuel N i b st = _
    rw [os_read_loop, if_neg (by omega), extend_nil]
    rfl
  | succ r ih =>
    intro i b st hi
    obtain ⟨p1, hp1, F1, h1⟩ := uart_getc_runs env hrx st
    have hcnt1 : readCount UART_THR (p1 ++ [Event.get UART_THR (rxWord env st)]) = 1 := by
      rw [readCount_append, readCount_polls hp1, readCount_get_self]
    have huart1 : ∀ e ∈ p1 ++ [Event.get UART_THR (rxWord env st)], isUart e = true := by
      intro e he
      rcases List.mem_append.1 he with he | he
      · exact isUart_of_isTx (isTx_of_isPoll (hp1 e he))
      · rw [List.mem_singleton] at he
        subst he
        simp [isUart]
    have htx1 : txBytes (p1 ++ [Event.get UART_THR (rxWord env st)]) = [] := by
      rw [txBytes_append, txBytes_polls hp1]
      rfl
    by_cases hterm : input env st 0 = 10 ∨ input env st 0 = 13
    · obtain ⟨e2, ht2, F2, h2⟩ := uart_putc_transmits env htx 10
        (st.extend (p1 ++ [Event.get UART_THR (rxWord env st)]))
      refine ⟨0, (p1 ++ [Event.get UART_THR (rxWord env st)]) ++ e2, by omega,
        fun j hj => absurd hj (by omega), fun _ => hterm,
        ⟨max F1 F2, fun fuel hf => ?_⟩, ?_, ?_, ?_⟩
      · have r1 : uart_getc env fuel st = some _ := h1 fuel (le_trans (le_max_left _ _) hf)
        have r2 : uart_putc env fuel 10 _ = some _ := h2 fuel (le_trans (le_max_right _ _) hf)
        show os_read_loop env fuel N i b st = _
        rw [os_read_loop, if_pos (by omega), r1]
        simp only []
        rw [if_pos (by rw [← input_zero]; exact hterm), r2, extend_extend]
        rfl
      · rw [txBytes_append, htx1, ht2.2]
        simp
      · rw [readCount_append, hcnt1, readCount_tx ht2.1]
        simp
      · intro e he
        rcases List.mem_append.1 he with he | he
        · exact huart1 e he
        · exact isUart_of_isTx (ht2.1 e he)
    · obtain ⟨e2, ht2, F2, h2⟩ := uart_putc_transmits env htx (input env st 0)
        (st.extend (p1 ++ [Event.get UART_THR (rxWord env st)]))
      rw [Nat.mod_eq_of_lt (input_lt env st 0)] at ht2
      have hcnt12 : readCount UART_THR ((p1 ++ [Event.get UART_THR (rxWord env st)]) ++ e2) = 1 := by
        rw [readCount_append, hcnt1, readCount_tx ht2.1]
      obtain ⟨k, e3, hk, hacc, hstop, ⟨F3, h3⟩, hbytes, hcnt3, huart3⟩ :=
        ih (i + 1) (b.store i (input env st 0))
          (st.extend ((p1 ++ [Event.get UART_THR (rxWord env st)]) ++ e2)) (by push_cast; omega)
      have hshift := input_shift env st _ hcnt12
      have hrange : (List.range (k + 1)).map (input env st) =
          input env st 0 :: (List.range k).map
            (input env (st.extend ((p1 ++ [Event.get UART_THR (rxWord env st)]) ++ e2))) := by
        rw [List.range_succ_eq_map, List.map_cons, List.map_map]
        congr 1
        apply List.map_congr_left
        intro j _
        exact (hshift j).symm
      refine ⟨k + 1, ((p1 ++ [Event.get UART_THR (rxWord env st)]) ++ e2) ++ e3, by omega,
        ?_, ?_, ⟨max (max F1 F2) F3, fun fuel hf => ?_⟩, ?_, ?_, ?_⟩
      · intro j hj
        cases j with
        | zero => exact ⟨fun h10 => hterm (Or.inl h10), fun h13 => hterm (Or.inr h13)⟩
        | succ j =>
          rw [← hshift j]
          exact hacc j (by omega)
      · intro hlt
        rw [← hshift k]
        exact hstop (by omega)
      · have r1 : uart_getc env fuel st = some _ :=
          h1 fuel (le_trans (le_trans (le_max_left _ _) (le_max_left _ _)) hf)
        have r2 : uart_putc env fuel (input env st 0) _ = some _ :=
          h2 fuel (le_trans (le_trans (le_max_right _ _) (le_max_left _ _)) hf)
        have r3 : os_read_loop env fuel N (i + 1) _ _ = some _ :=
          h3 fuel (le_trans (le_max_right _ _) hf)
        show os_read_loop env fuel N i b st = _
        rw [os_read_loop, if_pos (by omega), r1]
        simp only []
        rw [if_neg (by rw [← input_zero]; exact hterm), ← input_zero, r2, extend_extend]
        simp only []
        rw [r3, extend_extend, hrange]
        simp only [storeList]
        rw [Nat.add_assoc i 1 k, Nat.add_comm 1 k]
      · rw [txBytes_append, txBytes_append, htx1, ht2.2, hbytes, hrange]
        have hiff : (k + 1 < r + 1) ↔ (k < r) := by omega
        simp only [hiff]
        simp
      · rw [readCount_append, hcnt12, hcnt3]
        have hiff : (k + 1 < r + 1) ↔ (k < r) := by omega
        simp only [hiff]
        split <;> omega
      · intro e he
        rcases List.mem_append.1 he with he | he
        · rcases List.mem_append.1 he with he | he
          · exact huart1 e he
          · exact isUart_of_isTx (ht2.1 e he)
        · exact huart3 e he

theorem storeList_data_lt : ∀ (cs : List Nat) (i : Nat) (b : Buffer) (j : Nat), j < i →
    (storeList b i cs).data j = b.data j := by
  intro cs
  induction cs with
  | nil => intro i b j _; rfl
  | cons c cs ih =>
    intro i b j hj
    rw [storeList, ih (i + 1) _ j (by omega)]
    exact Function.update_noteq (by omega) _ _

theorem storeList_data_ge : ∀ (cs : List Nat) (i : Nat) (b : Buffer) (j : Nat),
    i + cs.length ≤ j → (storeList b i cs).data j = b.data j := by
  intro cs
  induction cs with
  | nil => intro i b j _; rfl
  | cons c cs ih =>
    intro i b j hj
    rw [List.length_cons] at hj
    rw [storeList, ih (i + 1) _ j (by omega)]
    exact Function.update_noteq (by omega) _ _

theorem storeList_data_map (f : Nat → Nat) : ∀ (k i : Nat) (b : Buffer) (j : Nat), j < k →
    (storeList b i ((List.range' i k).map (fun x => f x))).data (i + j) = f (i + j) := by
  intro k
  induction k with
  | zero => intro i b j hj; omega
  | succ k ih =>
    intro i b j hj
    rw [List.range'_succ, List.map_cons, storeList]
    cases j with
    | zero =>
      rw [Nat.add_zero, storeList_data_lt _ _ _ _ (by omega)]
      exact Function.update_same _ _ _
    | succ j =>
      have := ih (i + 1) (b.store i (f i)) j (by omega)
      rw [show i + (j + 1) = i + 1 + j by omega]
      exact this

theorem storeList_stores : ∀ (cs : List Nat) (i : Nat) (b : Buffer),
    (storeList b i cs).stores = b.stores ++ List.range' i cs.length := by
  intro cs
  induction cs with
  | nil => intro i b; simp [storeList]
  | cons c cs ih =>
    intro i b
    rw [storeList, ih, List.length_cons, List.range'_succ]
    simp [Buffer.store]

/-- What `os_read` does for `max_length ≥ 1`: `k` characters are accepted and
stored at `0..k-1`, the terminator is stored at `k`. -/
theorem os_read_spec (env : Env) (htx : TxEventuallyReady env)
    (hrx : RxEventuallyReady env) (N : Int) (hN : 1 ≤ N) (buffer : Buffer) (st : State) :
    ∃ (k : Nat) (evs : List Event), (k : Int) ≤ N - 1 ∧
      (∀ j, j < k → input env st j ≠ 10 ∧ input env st j ≠ 13) ∧
      ((k : Int) < N - 1 → input env st k = 10 ∨ input env st k = 13) ∧
      RunsTo (fun fuel => os_read env fuel buffer N st)
        ((storeList buffer 0 ((List.range k).map (input env st))).store k 0,
          st.extend evs) ∧
      txBytes evs = (List.range k).map (input env st) ++
        (if (k : Int) < N - 1 then [10] else []) ∧
      readCount UART_THR evs = (if (k : Int) < N - 1 then k + 1 else k) ∧
      (∀ e ∈ evs, isUart e = true) := by
  obtain ⟨k, evs, hk, hacc, hstop, ⟨F, hrun⟩, hbytes, hcnt, huart⟩ :=
    os_read_loop_spec env htx hrx N (N - 1).toNat 0 buffer st (by
      rw [int_sub_one_eq (by omega), Int.toNat_of_nonneg (by omega)]
      simp)
  have hiff : ((k : Int) < N - 1) ↔ k < (N - 1).toNat := by omega
  refine ⟨k, evs, by omega, hacc, fun h => hstop (hiff.1 h), ⟨F, fun fuel hf => ?_⟩, ?_, ?_,
    huart⟩
  · have r : os_read_loop env fuel N 0 buffer st = some _ := hrun fuel hf
    show os_read env fuel buffer N st = _
    rw [os_read, r]
    simp
  · rw [hbytes]
    simp only [hiff]
  · rw [hcnt]
    simp only [hiff]

/-- The data of the buffer `os_read` leaves behind. -/
theorem os_read_result_data (f : Nat → Nat) (buffer : Buffer) (k : Nat) :
    (∀ j, j < k → ((storeList buffer 0 ((List.range k).map f)).store k 0).data j = f j) ∧
    ((storeList buffer 0 ((List.range k).map f)).store k 0).data k = 0 ∧
    (∀ j, k < j → ((storeList buffer 0 ((List.range k).map f)).store k 0).data j =
      buffer.data j) := by
  refine ⟨fun j hj => ?_, ?_, fun j hj => ?_⟩
  · have h1 : ((storeList buffer 0 ((List.range k).map f)).store k 0).data j =
        (storeList buffer 0 ((List.range k).map f)).data j :=
      Function.update_noteq (by omega) _ _
    have h2 := storeList_data_map f k 0 buffer j hj
    rw [Nat.zero_add, ← List.range_eq_range'] at h2
    rw [h1, h2]
  · exact Function.update_same _ _ _
  · have h1 : ((storeList buffer 0 ((List.range k).map f)).store k 0).data j =
        (storeList buffer 0 ((List.range k).map f)).data j :=
      Function.update_noteq (by omega) _ _
    rw [h1, storeList_data_ge _ _ _ _ (by simp; omega)]

/-- C4: for `max_length = N ≥ 1` and a UART that is always eventually ready in
both directions, `os_read` returns.  With `k` the number of input characters
before the first `'\\n'` or `'\\r'` when one occurs among the first `N - 1`
characters, and `k = N - 1` otherwise (`k ≤ N - 1`, no terminator before
position `k`, a terminator at position `k` if `k < N - 1`), the buffer then
holds the first `k` input characters at `0..k-1` in order, a zero byte at
`k`, and its old content above `k`. -/
theorem os_read_buffer (env : Env) (htx : TxEventuallyReady env)
    (hrx : RxEventuallyReady env) (N : Int) (hN : 1 ≤ N) (buffer : Buffer) (st : State) :
    ∃ (k : Nat) (b : Buffer) (st1 : State),
      RunsTo (fun fuel => os_read env fuel buffer N st) (b, st1) ∧
      (k : Int) ≤ N - 1 ∧
      (∀ j, j < k → input env st j ≠ 10 ∧ input env st j ≠ 13) ∧
      ((k : Int) < N - 1 → input env st k = 10 ∨ input env st k = 13) ∧
      (∀ j, j < k → b.data j = input env st j) ∧
      b.data k = 0 ∧
      (∀ j, k < j → b.data j = buffer.data j) := by
  obtain ⟨k, evs, hk, hacc, hstop, hrun, -, -, -⟩ := os_read_spec env htx hrx N hN buffer st
  obtain ⟨d1, d2, d3⟩ := os_read_result_data (input env st) buffer k
  exact ⟨k, _, _, hrun, hk, hacc, hstop, d1, d2, d3⟩

/-- Witness for C4: a four-byte buffer on the always-ready hardware. -/
theorem os_read_buffer_witness :
    TxEventuallyReady envReady ∧ RxEventuallyReady envReady ∧ (1 : Int) ≤ 4 ∧
    ∃ (k : Nat) (b : Buffer) (st1 : State),
      RunsTo (fun fuel => os_read envReady fuel ⟨fun _ => 7, []⟩ 4 State.init) (b, st1) ∧
      (k : Int) ≤ 4 - 1 ∧
      (∀ j, j < k → input envReady State.init j ≠ 10 ∧ input envReady State.init j ≠ 13) ∧
      ((k : Int) < 4 - 1 →
        input envReady State.init k = 10 ∨ input envReady State.init k = 13) ∧
      (∀ j, j < k → b.data j = input envReady State.init j) ∧
      b.data k = 0 ∧
      (∀ j, k < j → b.data j = (⟨fun _ => 7, []⟩ : Buffer).data j) :=
  ⟨envReady_tx, envReady_rx, by decide,
    os_read_buffer envReady envReady_tx envReady_rx 4 (by decide) ⟨fun _ => 7, []⟩ State.init⟩

/-- For `max_length = N ≥ 1` the stores of `os_read` are in range: it stores to
the indices `0, 1, ..., k` in this order, with `k ≤ N - 1`. -/
theorem os_read_stores_in_range (env : Env) (htx : TxEventuallyReady env)
    (hrx : RxEventuallyReady env) (N : Int) (hN : 1 ≤ N) (buffer : Buffer) (st : State) :
    ∃ (k : Nat) (b : Buffer) (st1 : State),
      RunsTo (fun fuel => os_read env fuel buffer N st) (b, st1) ∧
      (k : Int) ≤ N - 1 ∧
      b.stores = buffer.stores ++ List.range (k + 1) := by
  obtain ⟨k, evs, hk, -, -, hrun, -, -, -⟩ := os_read_spec env htx hrx N hN buffer st
  refine ⟨k, _, _, hrun, hk, ?_⟩
  simp only [Buffer.store, storeList_stores, List.length_map, List.length_range]
  rw [List.range_succ, List.range_eq_range', List.append_assoc]

/-- C5 fails at `max_length = 0`: whatever the hardware, the poll bound, the
buffer and the state, `os_read(buffer, 0)` skips the loop and still executes
`buffer[0] = 0`, a store at index 0 of a buffer whose capacity is 0. -/
theorem os_read_zero_capacity (env : Env) (fuel : Nat) (buffer : Buffer) (st : State) :
    os_read env fuel buffer 0 st = some (buffer.store 0 0, st) ∧
    (buffer.store 0 0).stores = buffer.stores ++ [0] ∧
    ¬ (∀ i ∈ (buffer.store 0 0).stores, (i : Int) < 0) := by
  refine ⟨?_, rfl, ?_⟩
  · rw [os_read, os_read_loop, if_neg (by decide)]
  · intro hall
    have := hall 0 (by simp [Buffer.store])
    omega

/-- C6: for `max_length = N ≥ 1` and a UART that is always eventually ready in
both directions, `os_read` returns having accessed UART registers only.  With
`k` the number of stored characters, the bytes it wrote to the transmit
register are exactly the stored characters `buffer[0..k)` in order, followed
by one `'\\n'` exactly when it stopped on a line terminator (`k < N - 1`: it
then consumed `k + 1` input characters, the last one `'\\n'` or `'\\r'`); when
it stopped at the bound (`k = N - 1`) it consumed `k` characters and echoed no
newline.  `'\\r'` is never transmitted and no stored character is a line
terminator. -/
theorem os_read_echo (env : Env) (htx : TxEventuallyReady env)
    (hrx : RxEventuallyReady env) (N : Int) (hN : 1 ≤ N) (buffer : Buffer) (st : State) :
    ∃ (k : Nat) (b : Buffer) (evs : List Event),
      RunsTo (fun fuel => os_read env fuel buffer N st) (b, st.extend evs) ∧
      (∀ e ∈ evs, isUart e = true) ∧
      (k : Int) ≤ N - 1 ∧
      (∀ j, j < k → b.data j = input env st j) ∧
      txBytes evs = (List.range k).map b.data ++ (if (k : Int) < N - 1 then [10] else []) ∧
      ((k : Int) < N - 1 → readCount UART_THR evs = k + 1 ∧
        (input env st k = 10 ∨ input env st k = 13)) ∧
      (¬ (k : Int) < N - 1 → readCount UART_THR evs = k ∧ txBytes evs = (List.range k).map b.data) ∧
      13 ∉ txBytes evs ∧
      (∀ j, j < k → b.data j ≠ 10 ∧ b.data j ≠ 13) := by
  obtain ⟨k, evs, hk, hacc, hstop, hrun, hbytes, hcnt, huart⟩ :=
    os_read_spec env htx hrx N hN buffer st
  obtain ⟨d1, -, -⟩ := os_read_result_data (input env st) buffer k
  have hmap : (List.range k).map (input env st) = (List.range k).map
      ((storeList buffer 0 ((List.range k).map (input env st))).store k 0).data := by
    apply List.map_congr_left
    intro j hj
    exact (d1 j (List.mem_range.1 hj)).symm
  refine ⟨k, _, evs, hrun, huart, hk, d1, ?_, ?_, ?_, ?_, ?_⟩
  · rw [hbytes, ← hmap]
  · intro hlt
    rw [hcnt, if_pos hlt]
    exact ⟨rfl, hstop hlt⟩
  · intro hge
    rw [hcnt, hbytes, if_neg hge, if_neg hge, List.append_nil, ← hmap]
    exact ⟨rfl, rfl⟩
  · rw [hbytes]
    intro hmem
    rcases List.mem_append.1 hmem with hm | hm
    · obtain ⟨j, hj, hj13⟩ := List.mem_map.1 hm
      exact (hacc j (List.mem_range.1 hj)).2 hj13
    · split at hm <;> simp at hm
  · intro j hj
    rw [d1 j hj]
    exact hacc j hj

/-- Witness for C6: a four-byte buffer on the always-ready hardware. -/
theorem os_read_echo_witness :
    TxEventuallyReady envReady ∧ RxEventuallyReady envReady ∧ (1 : Int) ≤ 4 ∧
    ∃ (k : Nat) (b : Buffer) (evs : List Event),
      RunsTo (fun fuel => os_read envReady fuel ⟨fun _ => 7, []⟩ 4 State.init)
        (b, State.init.extend evs) ∧
      (∀ e ∈ evs, isUart e = true) ∧
      (k : Int) ≤ 4 - 1 ∧
      (∀ j, j < k → b.data j = input envReady State.init j) ∧
      txBytes evs = (List.range k).map b.data ++ (if (k : Int) < 4 - 1 then [10] else []) ∧
      ((k : Int) < 4 - 1 → readCount UART_THR evs = k + 1 ∧
        (input envReady State.init k = 10 ∨ input envReady State.init k = 13)) ∧
      (¬ (k : Int) < 4 - 1 →
        readCount UART_THR evs = k ∧ txBytes evs = (List.range k).map b.data) ∧
      13 ∉ txBytes evs ∧
      (∀ j, j < k → b.data j ≠ 10 ∧ b.data j ≠ 13) :=
  ⟨envReady_tx, envReady_rx, by decide,
    os_read_echo envReady envReady_tx envReady_rx 4 (by decide) ⟨fun _ => 7, []⟩ State.init⟩

/-! ## Results about `main`, exact polling, buffer use and the timer constants -/

/-- The byte lists used for the string literals of os.c are the literals. -/
theorem string_literals :
    msg_starting = ("Starting...\n".toList).map Char.toNat ∧
    msg_timer_initialized = ("Timer initialized\n".toList).map Char.toNat ∧
    msg_enabling = ("Enabling interrupts...\n".toList).map Char.toNat ∧
    msg_irqs_enabled = ("IRQs enabled\n".toList).map Char.toNat ∧
    tick = ("Tick\n".toList).map Char.toNat := by decide

theorem lsrReads_succ (env : Env) (k n : Nat) :
    lsrReads env k (n + 1) =
      Event.get UART_LSR (env UART_LSR k % 2 ^ 32) :: lsrReads env (k + 1) n := by
  unfold lsrReads
  rw [List.range_succ_eq_map, List.map_cons, List.map_map]
  congr 1
  apply List.map_congr_left
  intro i _
  simp only [Function.comp, Nat.succ_eq_add_one]
  rw [show k + (i + 1) = k + 1 + i by omega]

theorem lsrReads_length (env : Env) (k n : Nat) : (lsrReads env k n).length = n := by
  simp [lsrReads]

theorem lsrReads_isPoll (env : Env) (k n : Nat) : ∀ e ∈ lsrReads env k n, isPoll e = true := by
  intro e he
  simp only [lsrReads, List.mem_map] at he
  obtain ⟨i, -, rfl⟩ := he
  simp [isPoll]

/-- When the first `n` polls see `THRE` clear and the next one sees it set,
`uart_putc` makes exactly these `n + 1` polls and then the write. -/
theorem uart_putc_polls (env : Env) (c : Nat) : ∀ (n : Nat) (st : State),
    (∀ i, i < n → env UART_LSR (readCount UART_LSR st.trace + i) % 2 ^ 32 &&& UART_LSR_THRE = 0) →
    env UART_LSR (readCount UART_LSR st.trace + n) % 2 ^ 32 &&& UART_LSR_THRE ≠ 0 →
    ∀ fuel, n + 1 ≤ fuel →
      uart_putc env fuel c st =
        some (st.extend (lsrReads env (readCount UART_LSR st.trace) (n + 1) ++
          [Event.put UART_THR (c % 256)])) := by
  intro n
  induction n with
  | zero =>
    intro st _ hready fuel hf
    obtain ⟨f, rfl⟩ : ∃ f, fuel = f + 1 := ⟨fuel - 1, by omega⟩
    rw [Nat.add_zero] at hready
    rw [uart_putc]
    rw [if_neg (by rw [GET32_fst]; exact hready), GET32_snd, PUT32_eq, extend_extend]
    have hc : c % 256 % 2 ^ 32 = c % 256 := Nat.mod_eq_of_lt (by omega)
    rw [hc, lsrReads_succ]
    rfl
  | succ n ih =>
    intro st hclear hready fuel hf
    obtain ⟨f, rfl⟩ : ∃ f, fuel = f + 1 := ⟨fuel - 1, by omega⟩
    have h0 := hclear 0 (by omega)
    rw [Nat.add_zero] at h0
    have hc : readCount UART_LSR (GET32 env UART_LSR st).2.trace =
        readCount UART_LSR st.trace + 1 := by
      rw [GET32_snd, extend_trace, readCount_append, readCount_get_self]
    have hrec := ih (GET32 env UART_LSR st).2
      (fun i hi => by
        rw [hc, show readCount UART_LSR st.trace + 1 + i =
          readCount UART_LSR st.trace + (i + 1) by omega]
        exact hclear (i + 1) (by omega))
      (by
        rw [hc, show readCount UART_LSR st.trace + 1 + n =
          readCount UART_LSR st.trace + (n + 1) by omega]
        exact hready)
      f (by omega)
    rw [uart_putc]
    rw [if_pos (by rw [GET32_fst]; exact h0), hrec, hc, GET32_snd, extend_extend,
      lsrReads_succ env (readCount UART_LSR st.trace) (n + 1)]
    rfl

/-- With fewer polls allowed than the hardware needs, `uart_putc` is still
waiting: a bound of at most `n` is exhausted when the first `n` polls see
`THRE` clear. -/
theorem uart_putc_waits (env : Env) (c : Nat) : ∀ (fuel : Nat) (st : State),
    (∀ i, i < fuel →
      env UART_LSR (readCount UART_LSR st.trace + i) % 2 ^ 32 &&& UART_LSR_THRE = 0) →
    uart_putc env fuel c st = none := by
  intro fuel
  induction fuel with
  | zero => intro st _; rfl
  | succ f ih =>
    intro st hclear
    have h0 := hclear 0 (by omega)
    rw [Nat.add_zero] at h0
    have hc : readCount UART_LSR (GET32 env UART_LSR st).2.trace =
        readCount UART_LSR st.trace + 1 := by
      rw [GET32_snd, extend_trace, readCount_append, readCount_get_self]
    rw [uart_putc]
    rw [if_pos (by rw [GET32_fst]; exact h0)]
    apply ih
    intro i hi
    rw [hc, show readCount UART_LSR st.trace + 1 + i =
      readCount UART_LSR st.trace + (i + 1) by omega]
    exact hclear (i + 1) (by omega)

/-- C17: let the line-status values that `uart_putc` is going to read have
`THRE` (bit `0x20`) clear in the first `n` and set in the next one, so that the
first value with the bit set is the `j`-th with `j = n + 1`.  Then, given at
least `j` polls, `uart_putc` returns after exactly `j` reads of `UART_LSR`
followed by exactly one write, of the character `c`, to `UART_THR`, and no
other access; the read just before the write saw `THRE` set, all earlier ones
saw it clear; and a bound of `n` polls or fewer is exhausted without any
write. -/
theorem uart_putc_exact (env : Env) (c n : Nat) (st : State)
    (hclear : ∀ i, i < n →
      env UART_LSR (readCount UART_LSR st.trace + i) % 2 ^ 32 &&& UART_LSR_THRE = 0)
    (hready : env UART_LSR (readCount UART_LSR st.trace + n) % 2 ^ 32 &&& UART_LSR_THRE ≠ 0) :
    (∀ fuel, n + 1 ≤ fuel → uart_putc env fuel c st =
      some (st.extend (lsrReads env (readCount UART_LSR st.trace) (n + 1) ++
        [Event.put UART_THR (c % 256)]))) ∧
    (∀ fuel, fuel ≤ n → uart_putc env fuel c st = none) ∧
    (lsrReads env (readCount UART_LSR st.trace) (n + 1)).length = n + 1 ∧
    (∀ e ∈ lsrReads env (readCount UART_LSR st.trace) (n + 1), ∃ v, e = Event.get UART_LSR v) ∧
    (lsrReads env (readCount UART_LSR st.trace) (n + 1)).getLast? =
      some (Event.get UART_LSR (env UART_LSR (readCount UART_LSR st.trace + n) % 2 ^ 32)) ∧
    (∀ i, i < n → (lsrReads env (readCount UART_LSR st.trace) (n + 1))[i]? =
      some (Event.get UART_LSR (env UART_LSR (readCount UART_LSR st.trace + i) % 2 ^ 32))) ∧
    (c < 256 → c % 256 = c) := by
  refine ⟨uart_putc_polls env c n st hclear hready, ?_, lsrReads_length _ _ _, ?_, ?_, ?_,
    fun h => Nat.mod_eq_of_lt h⟩
  · intro fuel hf
    exact uart_putc_waits env c fuel st (fun i hi => hclear i (by omega))
  · intro e he
    simp only [lsrReads, List.mem_map] at he
    obtain ⟨i, -, rfl⟩ := he
    exact ⟨_, rfl⟩
  · simp [lsrReads, List.range_succ]
  · intro i hi
    simp [lsrReads, List.getElem?_map, List.getElem?_range (show i < n + 1 by omega)]

/-- Witness for C17: two busy polls, then ready. -/
theorem uart_putc_exact_witness :
    (∀ i, i < 2 → envSlow UART_LSR (readCount UART_LSR State.init.trace + i) % 2 ^ 32 &&&
      UART_LSR_THRE = 0) ∧
    envSlow UART_LSR (readCount UART_LSR State.init.trace + 2) % 2 ^ 32 &&& UART_LSR_THRE ≠ 0 ∧
    ((∀ fuel, 2 + 1 ≤ fuel → uart_putc envSlow fuel 65 State.init =
      some (State.init.extend (lsrReads envSlow (readCount UART_LSR State.init.trace) (2 + 1) ++
        [Event.put UART_THR (65 % 256)]))) ∧
    (∀ fuel, fuel ≤ 2 → uart_putc envSlow fuel 65 State.init = none) ∧
    (lsrReads envSlow (readCount UART_LSR State.init.trace) (2 + 1)).length = 2 + 1 ∧
    (∀ e ∈ lsrReads envSlow (readCount UART_LSR State.init.trace) (2 + 1),
      ∃ v, e = Event.get UART_LSR v) ∧
    (lsrReads envSlow (readCount UART_LSR State.init.trace) (2 + 1)).getLast? =
      some (Event.get UART_LSR
        (envSlow UART_LSR (readCount UART_LSR State.init.trace + 2) % 2 ^ 32)) ∧
    (∀ i, i < 2 → (lsrReads envSlow (readCount UART_LSR State.init.trace) (2 + 1))[i]? =
      some (Event.get UART_LSR
        (envSlow UART_LSR (readCount UART_LSR State.init.trace + i) % 2 ^ 32))) ∧
    (65 < 256 → 65 % 256 = 65)) :=
  ⟨by decide, by decide, uart_putc_exact envSlow 65 2 State.init (by decide) (by decide)⟩

/-- When the first `n` polls see `RXFE` set and the next one sees it clear,
`uart_getc` makes exactly these `n + 1` polls and then reads the receive
register once. -/
theorem uart_getc_polls (env : Env) : ∀ (n : Nat) (st : State),
    (∀ i, i < n → env UART_LSR (readCount UART_LSR st.trace + i) % 2 ^ 32 &&& UART_LSR_RXFE ≠ 0) →
    env UART_LSR (readCount UART_LSR st.trace + n) % 2 ^ 32 &&& UART_LSR_RXFE = 0 →
    ∀ fuel, n + 1 ≤ fuel →
      uart_getc env fuel st =
        some ((rxWord env st &&& 0xFF) % 256,
          st.extend (lsrReads env (readCount UART_LSR st.trace) (n + 1) ++
            [Event.get UART_THR (rxWord env st)])) := by
  intro n
  induction n with
  | zero =>
    intro st _ havail fuel hf
    obtain ⟨f, rfl⟩ : ∃ f, fuel = f + 1 := ⟨fuel - 1, by omega⟩
    rw [Nat.add_zero] at havail
    have hrc : readCount UART_THR (GET32 env UART_LSR st).2.trace =
        readCount UART_THR st.trace := by
      rw [GET32_snd, extend_trace, readCount_append,
        readCount_get_other _ (by decide : UART_LSR ≠ UART_THR)]
      rfl
    rw [uart_getc]
    rw [if_neg (by rw [GET32_fst]; exact not_not.2 havail)]
    simp only [GET32_fst, hrc]
    rw [GET32_snd (a := UART_THR), hrc, GET32_snd, extend_extend, lsrReads_succ]
    rfl
  | succ n ih =>
    intro st hempty havail fuel hf
    obtain ⟨f, rfl⟩ : ∃ f, fuel = f + 1 := ⟨fuel - 1, by omega⟩
    have h0 := hempty 0 (by omega)
    rw [Nat.add_zero] at h0
    have hc : readCount UART_LSR (GET32 env UART_LSR st).2.trace =
        readCount UART_LSR st.trace + 1 := by
      rw [GET32_snd, extend_trace, readCount_append, readCount_get_self]
    have hrc : rxWord env (GET32 env UART_LSR st).2 = rxWord env st := by
      unfold rxWord
      rw [GET32_snd, extend_trace, readCount_append,
        readCount_get_other _ (by decide : UART_LSR ≠ UART_THR)]
      rfl
    have hrec := ih (GET32 env UART_LSR st).2
      (fun i hi => by
        rw [hc, show readCount UART_LSR st.trace + 1 + i =
          readCount UART_LSR st.trace + (i + 1) by omega]
        exact hempty (i + 1) (by omega))
      (by
        rw [hc, show readCount UART_LSR st.trace + 1 + n =
          readCount UART_LSR st.trace + (n + 1) by omega]
        exact havail)
      f (by omega)
    rw [uart_getc]
    rw [if_pos (by rw [GET32_fst]; exact h0), hrec, hc, hrc, GET32_snd, extend_extend,
      lsrReads_succ env (readCount UART_LSR st.trace) (n + 1)]
    rfl

/-- With fewer polls allowed than the hardware needs, `uart_getc` is still
waiting and has not read the receive register. -/
theorem uart_getc_waits (env : Env) : ∀ (fuel : Nat) (st : State),
    (∀ i, i < fuel →
      env UART_LSR (readCount UART_LSR st.trace + i) % 2 ^ 32 &&& UART_LSR_RXFE ≠ 0) →
    uart_getc env fuel st = none := by
  intro fuel
  induction fuel with
  | zero => intro st _; rfl
  | succ f ih =>
    intro st hempty
    have h0 := hempty 0 (by omega)
    rw [Nat.add_zero] at h0
    have hc : readCount UART_LSR (GET32 env UART_LSR st).2.trace =
        readCount UART_LSR st.trace + 1 := by
      rw [GET32_snd, extend_trace, readCount_append, readCount_get_self]
    rw [uart_getc]
    rw [if_pos (by rw [GET32_fst]; exact h0)]
    apply ih
    intro i hi
    rw [hc, show readCount UART_LSR st.trace + 1 + i =
      readCount UART_LSR st.trace + (i + 1) by omega]
    exact hempty (i + 1) (by omega)

theorem low_byte (w : Nat) : (w &&& 0xFF) % 256 = w % 256 := by
  have hmask : (0xFF : Nat) = 2 ^ 8 - 1 := by norm_num
  rw [hmask, Nat.and_pow_two_sub_one_eq_mod]
  omega

/-- C18: let the line-status values that `uart_getc` is going to read have
`RXFE` (mask `0x10`) set in the first `n` and clear in the next one.  Then,
given at least `n + 1` polls, `uart_getc` returns after these `n + 1` reads of
`UART_LSR` followed by exactly one read of the receive register; the read just
before it saw `RXFE` clear and all earlier ones saw it set; a bound of `n`
polls or fewer is exhausted without the receive register being read.  The
character returned is the 32-bit word read modulo `2^8 = 256`, so it is below `256`
and two words with the same low 8 bits give the same character. -/
theorem uart_getc_exact (env : Env) (n : Nat) (st : State)
    (hempty : ∀ i, i < n →
      env UART_LSR (readCount UART_LSR st.trace + i) % 2 ^ 32 &&& UART_LSR_RXFE ≠ 0)
    (havail : env UART_LSR (readCount UART_LSR st.trace + n) % 2 ^ 32 &&& UART_LSR_RXFE = 0) :
    (∀ fuel, n + 1 ≤ fuel → uart_getc env fuel st =
      some (rxWord env st % 256,
        st.extend (lsrReads env (readCount UART_LSR st.trace) (n + 1) ++
          [Event.get UART_THR (rxWord env st)]))) ∧
    (∀ fuel, fuel ≤ n → uart_getc env fuel st = none) ∧
    (lsrReads env (readCount UART_LSR st.trace) (n + 1)).length = n + 1 ∧
    (∀ e ∈ lsrReads env (readCount UART_LSR st.trace) (n + 1), ∃ v, e = Event.get UART_LSR v) ∧
    (lsrReads env (readCount UART_LSR st.trace) (n + 1)).getLast? =
      some (Event.get UART_LSR (env UART_LSR (readCount UART_LSR st.trace + n) % 2 ^ 32)) ∧
    readCount UART_THR (lsrReads env (readCount UART_LSR st.trace) (n + 1) ++
      [Event.get UART_THR (rxWord env st)]) = 1 ∧
    rxWord env st < 2 ^ 32 ∧
    rxWord env st % 256 < 256 ∧
    (∀ w, w % 256 = rxWord env st % 256 → (w &&& 0xFF) % 256 = rxWord env st % 256) := by
  refine ⟨?_, ?_, lsrReads_length _ _ _, ?_, ?_, ?_, Nat.mod_lt _ (by norm_num),
    Nat.mod_lt _ (by norm_num), ?_⟩
  · intro fuel hf
    rw [uart_getc_polls env n st hempty havail fuel hf, low_byte]
  · intro fuel hf
    exact uart_getc_waits env fuel st (fun i hi => hempty i (by omega))
  · intro e he
    simp only [lsrReads, List.mem_map] at he
    obtain ⟨i, -, rfl⟩ := he
    exact ⟨_, rfl⟩
  · simp [lsrReads, List.range_succ]
  · rw [readCount_append, readCount_polls (lsrReads_isPoll _ _ _), readCount_get_self]
  · intro w hw
    rw [low_byte, ← hw]

/-- Witness for C18: two polls with the receive FIFO empty, then data. -/
theorem uart_getc_exact_witness :
    (∀ i, i < 2 → envSlow UART_LSR (readCount UART_LSR State.init.trace + i) % 2 ^ 32 &&&
      UART_LSR_RXFE ≠ 0) ∧
    envSlow UART_LSR (readCount UART_LSR State.init.trace + 2) % 2 ^ 32 &&& UART_LSR_RXFE = 0 ∧
    ((∀ fuel, 2 + 1 ≤ fuel → uart_getc envSlow fuel State.init =
      some (rxWord envSlow State.init % 256,
        State.init.extend (lsrReads envSlow (readCount UART_LSR State.init.trace) (2 + 1) ++
          [Event.get UART_THR (rxWord envSlow State.init)]))) ∧
    (∀ fuel, fuel ≤ 2 → uart_getc envSlow fuel State.init = none) ∧
    (lsrReads envSlow (readCount UART_LSR State.init.trace) (2 + 1)).length = 2 + 1 ∧
    (∀ e ∈ lsrReads envSlow (readCount UART_LSR State.init.trace) (2 + 1),
      ∃ v, e = Event.get UART_LSR v) ∧
    (lsrReads envSlow (readCount UART_LSR State.init.trace) (2 + 1)).getLast? =
      some (Event.get UART_LSR
        (envSlow UART_LSR (readCount UART_LSR State.init.trace + 2) % 2 ^ 32)) ∧
    readCount UART_THR (lsrReads envSlow (readCount UART_LSR State.init.trace) (2 + 1) ++
      [Event.get UART_THR (rxWord envSlow State.init)]) = 1 ∧
    rxWord envSlow State.init < 2 ^ 32 ∧
    rxWord envSlow State.init % 256 < 256 ∧
    (∀ w, w % 256 = rxWord envSlow State.init % 256 →
      (w &&& 0xFF) % 256 = rxWord envSlow State.init % 256)) :=
  ⟨by decide, by decide, uart_getc_exact envSlow 2 State.init (by decide) (by decide)⟩

/-- The accesses of `timer_init`. -/
theorem timer_init_eq (st : State) :
    timer_init st = st.extend
      [Event.put CM_PER_TIMER2_CLKCTRL 0x2, Event.put INTC_MIR_CLEAR2 0x10,
       Event.put INTC_ILR68 0x0, Event.put TCLR 0x0, Event.put TISR 0x7,
       Event.put TLDR 0xFE91CA00, Event.put TCRR 0xFE91CA00, Event.put TIER 0x2,
       Event.put TCLR 0x3] := by
  simp only [timer_init, PUT32_eq, extend_extend]
  rfl

theorem timer_init_new_events (st : State) :
    (timer_init st).trace.drop st.trace.length =
      [Event.put CM_PER_TIMER2_CLKCTRL 0x2, Event.put INTC_MIR_CLEAR2 0x10,
       Event.put INTC_ILR68 0x0, Event.put TCLR 0x0, Event.put TISR 0x7,
       Event.put TLDR 0xFE91CA00, Event.put TCRR 0xFE91CA00, Event.put TIER 0x2,
       Event.put TCLR 0x3] := by
  rw [timer_init_eq, extend_trace, List.drop_left]

/-- The digit loop stores to the slots `i`, ..., `i + (number of digits) - 1`
and to no other: below and above them the array keeps its content, and slot
`i + j` receives the `j`-th digit counted from the least significant. -/
theorem uart_putnum_digits_slots : ∀ (num i : Nat) (buf : Nat → Nat),
    0 < num → num < 10 ^ (10 - i) →
    (∀ j, j < i → (uart_putnum_digits num i buf).2.2 j = buf j) ∧
    (∀ j, i + (Nat.digits 10 num).length ≤ j → (uart_putnum_digits num i buf).2.2 j = buf j) ∧
    (∀ j, j < (Nat.digits 10 num).length →
      (uart_putnum_digits num i buf).2.2 (i + j) = (Nat.digits 10 num).getD j 0 + 48) := by
  intro num
  induction num using Nat.strong_induction_on with
  | _ num ih =>
    intro i buf hpos hlt
    have hi : i < 10 := by
      by_contra hge
      have : 10 - i = 0 := by omega
      rw [this] at hlt
      omega
    have hdig : Nat.digits 10 num = num % 10 :: Nat.digits 10 (num / 10) :=
      Nat.digits_def' (by norm_num) hpos
    have hchar : (num % 10 + 48) % 256 = num % 10 + 48 := by omega
    rw [uart_putnum_digits]
    simp only [hchar]
    by_cases hc : num / 10 > 0 ∧ i + 1 < 10
    · rw [if_pos hc]
      have hlt' : num / 10 < 10 ^ (10 - (i + 1)) := by
        have hpow : 10 ^ (10 - i) = 10 * 10 ^ (10 - (i + 1)) := by
          rw [← pow_succ']
          congr 1
          omega
        rw [hpow] at hlt
        omega
      obtain ⟨h1, h2, h3⟩ := ih (num / 10) (by omega) (i + 1)
        (Function.update buf i (num % 10 + 48)) hc.1 hlt'
      rw [hdig, List.length_cons]
      refine ⟨fun j hj => ?_, fun j hj => ?_, fun j hj => ?_⟩
      · rw [h1 j (by omega), Function.update_noteq (by omega)]
      · rw [h2 j (by omega), Function.update_noteq (by omega)]
      · cases j with
        | zero =>
          rw [show i + 0 = i from rfl, h1 i (by omega), Function.update_same]
          rfl
        | succ j =>
          rw [show i + (j + 1) = i + 1 + j by omega, h3 j (by omega)]
          rfl
    · rw [if_neg hc]
      have hz : num / 10 = 0 := by
        by_contra hnz
        have h10 : 10 ≤ num := by omega
        have : i + 1 < 10 := by
          by_contra hge
          have hi9 : 10 - i = 1 := by omega
          rw [hi9] at hlt
          omega
        exact hc ⟨by omega, this⟩
      rw [hdig, hz]
      simp only [Nat.digits_zero, List.length_cons, List.length_nil]
      refine ⟨fun j hj => ?_, fun j hj => ?_, fun j hj => ?_⟩
      · exact Function.update_noteq (by omega) _ _
      · exact Function.update_noteq (by omega) _ _
      · have hj0 : j = 0 := by omega
        subst hj0
        rw [show i + 0 = i from rfl, Function.update_same]
        rfl

/-- The emit loop started at `i` reads the slots below `i` only: on arrays
that agree there it does the same. -/
theorem uart_putnum_emit_congr (env : Env) (fuel : Nat) (b1 b2 : Nat → Nat) :
    ∀ (i : Nat) (st : State), (∀ j, j < i → b1 j = b2 j) →
    uart_putnum_emit env fuel i b1 st = uart_putnum_emit env fuel i b2 st := by
  intro i
  induction i with
  | zero => intro st _; rfl
  | succ i ih =>
    intro st hagree
    rw [uart_putnum_emit, uart_putnum_emit, hagree i (by omega)]
    cases uart_putc env fuel (b2 i) st with
    | none => rfl
    | some st1 => exact ih st1 (fun j hj => hagree j (by omega))

/-- C14: for `0 < num < 2^32`, whatever the array `buf` holds initially
(modelled values need not even be characters, so a slot that keeps its content
for every initial content has not been stored to), the digit loop ends with
`num = 0`, that is by the test `num > 0` and not by the cap; `i` then is the
number of decimal digits of `num`, between 1 and 10; every slot at or above
this `i`, in particular every index from 10 on, keeps its content, so only
indices `0..9` are stored to; every slot `j` below `i` holds the `j`-th digit
(least significant first); the emit loop, which reads the slots `i - 1` down
to `0`, therefore reads stored slots only, reads the same characters whatever
the initial content was (its whole run, for every hardware and poll bound,
is the same for every initial content), and these are all the digits of
`num`, most significant first. -/
theorem uart_putnum_buffer_safe (num : Nat) (h0 : 0 < num) (h32 : num < 2 ^ 32)
    (buf : Nat → Nat) :
    (uart_putnum_digits num 0 buf).1 = 0 ∧
    (uart_putnum_digits num 0 buf).2.1 = (Nat.digits 10 num).length ∧
    1 ≤ (uart_putnum_digits num 0 buf).2.1 ∧
    (uart_putnum_digits num 0 buf).2.1 ≤ 10 ∧
    (∀ j, (uart_putnum_digits num 0 buf).2.1 ≤ j → (uart_putnum_digits num 0 buf).2.2 j = buf j) ∧
    (∀ j, j < (uart_putnum_digits num 0 buf).2.1 →
      (uart_putnum_digits num 0 buf).2.2 j = (Nat.digits 10 num).getD j 0 + 48) ∧
    bufRev (uart_putnum_digits num 0 buf).2.2 (uart_putnum_digits num 0 buf).2.1 = decimal num ∧
    (∀ buf2 : Nat → Nat,
      bufRev (uart_putnum_digits num 0 buf2).2.2 (uart_putnum_digits num 0 buf2).2.1 =
        bufRev (uart_putnum_digits num 0 buf).2.2 (uart_putnum_digits num 0 buf).2.1) ∧
    (∀ (buf2 : Nat → Nat) (env : Env) (fuel : Nat) (st : State),
      uart_putnum_emit env fuel (uart_putnum_digits num 0 buf2).2.1
          (uart_putnum_digits num 0 buf2).2.2 st =
        uart_putnum_emit env fuel (uart_putnum_digits num 0 buf).2.1
          (uart_putnum_digits num 0 buf).2.2 st) ∧
    Nat.ofDigits 10 (Nat.digits 10 num) = num := by
  have hlt : num < 10 ^ (10 - 0) := lt_of_lt_of_le h32 (by norm_num)
  obtain ⟨hnum, hi, hrev⟩ := uart_putnum_digits_spec num 0 buf h0 hlt
  obtain ⟨-, habove, hslot⟩ := uart_putnum_digits_slots num 0 buf h0 hlt
  have hrev2 : ∀ b : Nat → Nat,
      bufRev (uart_putnum_digits num 0 b).2.2 (uart_putnum_digits num 0 b).2.1 = decimal num := by
    intro b
    have := (uart_putnum_digits_spec num 0 b h0 hlt).2.2
    simpa [bufRev] using this
  have hlen1 : 1 ≤ (Nat.digits 10 num).length := by
    have hne : Nat.digits 10 num ≠ [] := Nat.digits_ne_nil_iff_ne_zero.2 (by omega)
    exact List.length_pos.2 hne
  have hlen10 : (Nat.digits 10 num).length ≤ 10 := by
    have hpow := Nat.base_pow_length_digits_le 10 num (by norm_num) (by omega)
    by_contra hgt
    have h11 : 10 ^ 11 ≤ 10 ^ (Nat.digits 10 num).length :=
      Nat.pow_le_pow_right (by norm_num) (by omega)
    have : (10 : Nat) ^ 11 ≤ 10 * num := le_trans h11 hpow
    norm_num at this
    omega
  rw [Nat.zero_add] at hi
  refine ⟨hnum, hi, by omega, by omega, ?_, ?_, hrev2 buf, ?_, ?_, Nat.ofDigits_digits 10 num⟩
  · intro j hj
    exact habove j (by omega)
  · intro j hj
    have := hslot j (by omega)
    rw [Nat.zero_add] at this
    exact this
  · intro buf2
    rw [hrev2 buf2, hrev2 buf]
  · intro buf2 env fuel st
    have hi2 := (uart_putnum_digits_spec num 0 buf2 h0 hlt).2.1
    rw [Nat.zero_add] at hi2
    rw [hi2, hi]
    apply uart_putnum_emit_congr
    intro j hj
    have s1 := (uart_putnum_digits_slots num 0 buf2 h0 hlt).2.2 j hj
    have s2 := hslot j hj
    rw [Nat.zero_add] at s1 s2
    rw [s1, s2]

/-- Witness for C14: the largest 32-bit value, with ten digits. -/
theorem uart_putnum_buffer_safe_witness :
    0 < 4294967295 ∧ 4294967295 < 2 ^ 32 ∧
    ((uart_putnum_digits 4294967295 0 (fun _ => 1000)).1 = 0 ∧
    (uart_putnum_digits 4294967295 0 (fun _ => 1000)).2.1 = (Nat.digits 10 4294967295).length ∧
    1 ≤ (uart_putnum_digits 4294967295 0 (fun _ => 1000)).2.1 ∧
    (uart_putnum_digits 4294967295 0 (fun _ => 1000)).2.1 ≤ 10 ∧
    (∀ j, (uart_putnum_digits 4294967295 0 (fun _ => 1000)).2.1 ≤ j →
      (uart_putnum_digits 4294967295 0 (fun _ => 1000)).2.2 j = (fun _ => 1000) j) ∧
    (∀ j, j < (uart_putnum_digits 4294967295 0 (fun _ => 1000)).2.1 →
      (uart_putnum_digits 4294967295 0 (fun _ => 1000)).2.2 j =
        (Nat.digits 10 4294967295).getD j 0 + 48) ∧
    bufRev (uart_putnum_digits 4294967295 0 (fun _ => 1000)).2.2
      (uart_putnum_digits 4294967295 0 (fun _ => 1000)).2.1 = decimal 4294967295 ∧
    (∀ buf2 : Nat → Nat,
      bufRev (uart_putnum_digits 4294967295 0 buf2).2.2
          (uart_putnum_digits 4294967295 0 buf2).2.1 =
        bufRev (uart_putnum_digits 4294967295 0 (fun _ => 1000)).2.2
          (uart_putnum_digits 4294967295 0 (fun _ => 1000)).2.1) ∧
    (∀ (buf2 : Nat → Nat) (env : Env) (fuel : Nat) (st : State),
      uart_putnum_emit env fuel (uart_putnum_digits 4294967295 0 buf2).2.1
          (uart_putnum_digits 4294967295 0 buf2).2.2 st =
        uart_putnum_emit env fuel (uart_putnum_digits 4294967295 0 (fun _ => 1000)).2.1
          (uart_putnum_digits 4294967295 0 (fun _ => 1000)).2.2 st) ∧
    Nat.ofDigits 10 (Nat.digits 10 4294967295) = 4294967295) :=
  ⟨by decide, by decide,
    uart_putnum_buffer_safe 4294967295 (by decide) (by decide) (fun _ => 1000)⟩

/-- C15 on the code: the second write of `timer_init` puts `1 << 4` into
`INTC_MIR_CLEAR2`, a value whose only set bit is bit `4 = 68 - 64`; but the
register that receives `0x0` in the third write, `INTC_ILR68 = INTCPS_BASE +
0x110`, is the line register of line 4 and not of line 68, which lies at
`INTCPS_BASE + 0x100 + 4 * 68 = INTCPS_BASE + 0x210`; `timer_init` never writes
the line register of line 68. -/
theorem timer_init_intc_line (st : State) :
    ((timer_init st).trace.drop st.trace.length)[1]? = some (Event.put INTC_MIR_CLEAR2 (1 <<< 4)) ∧
    (∀ j, (1 <<< 4 : Nat).testBit j = decide (j = 68 - 64)) ∧
    ((timer_init st).trace.drop st.trace.length)[2]? = some (Event.put INTC_ILR68 0x0) ∧
    INTC_ILR68 = INTC_ILR 4 ∧
    INTC_ILR68 ≠ INTC_ILR 68 ∧
    INTC_ILR 68 = INTCPS_BASE + 0x210 ∧
    writesTo (INTC_ILR 68) ((timer_init st).trace.drop st.trace.length) = [] ∧
    writesTo (INTC_ILR 4) ((timer_init st).trace.drop st.trace.length) = [0x0] := by
  rw [timer_init_new_events]
  refine ⟨rfl, ?_, rfl, by decide, by decide, by decide, by decide, by decide⟩
  intro j
  have h16 : (1 <<< 4 : Nat) = 2 ^ 4 := by decide
  rw [h16, Nat.testBit_two_pow]
  by_cases hj : j = 4
  · subst hj
    decide
  · have : ¬ (4 = j) := fun h => hj h.symm
    simp [hj, this]

/-- C16 on the code: `timer_init` loads `0xFE91CA00` into `TLDR` and `TCRR`;
an up-counting 32-bit timer overflows `2^32 - 0xFE91CA00 = 24,000,000` counts
later, which at 24 MHz is one second and not two: `2 * 24,000,000` counts
would need the load value `0xFD239400`. -/
theorem timer_init_period (st : State) :
    writesTo TLDR ((timer_init st).trace.drop st.trace.length) = [0xFE91CA00] ∧
    writesTo TCRR ((timer_init st).trace.drop st.trace.length) = [0xFE91CA00] ∧
    2 ^ 32 - 0xFE91CA00 = 24000000 ∧
    2 ^ 32 - 0xFE91CA00 ≠ 2 * 24000000 ∧
    2 ^ 32 - 0xFD239400 = 2 * 24000000 := by
  rw [timer_init_new_events]
  refine ⟨?_, ?_, by norm_num, by norm_num, by norm_num⟩ <;> decide

/-- For `INT_MIN < max_length ≤ 1` the loop of `os_read` is not entered: no
access is made, whatever the hardware and the poll bound, and only the
terminator is stored. -/
theorem os_read_small (env : Env) (fuel : Nat) (buffer : Buffer) (N : Int)
    (hmin : -2147483648 < N) (hN : N ≤ 1) (st : State) :
    os_read env fuel buffer N st = some (buffer.store 0 0, st) := by
  rw [os_read, os_read_loop, if_neg (by rw [int_sub_one_eq hmin]; push_cast; omega)]

/-- What `os_read(buffer, INT_MIN)` does when the first character received is
a newline: the bound `max_length - 1` has wrapped to `INT_MAX`, so the loop is
entered, the character is consumed and a newline is echoed. -/
theorem os_read_int_min_run :
    os_read envNewline 1 ⟨fun _ => 7, []⟩ (-2147483648) State.init =
      some ((⟨fun _ => 7, []⟩ : Buffer).store 0 0,
        State.init.extend [Event.get UART_LSR 0x20, Event.get UART_THR 0x0A,
          Event.get UART_LSR 0x20, Event.put UART_THR 0x0A]) := by
  have hg : uart_getc envNewline 1 State.init =
      some (10, State.init.extend [Event.get UART_LSR 0x20, Event.get UART_THR 0x0A]) := by
    rfl
  have hp : uart_putc envNewline 1 10
      (State.init.extend [Event.get UART_LSR 0x20, Event.get UART_THR 0x0A]) =
      some (State.init.extend [Event.get UART_LSR 0x20, Event.get UART_THR 0x0A,
        Event.get UART_LSR 0x20, Event.put UART_THR 0x0A]) := by
    rfl
  rw [os_read, os_read_loop, if_pos (by decide), hg]
  simp only []
  rw [if_pos (Or.inl trivial), hp]

/-- C19 as stated fails at `max_length = INT_MIN = -2^31`: there `N ≤ 1` and
`max (N - 1) 0 = 0`, so the claim promises that no input is consumed and
nothing is echoed; but `max_length - 1` wraps to `INT_MAX`, the loop is
entered, and on a hardware that is ready at every poll and delivers a newline
`os_read` returns after reading the receive register once and transmitting
one `'\n'`. -/
theorem os_read_consumes_counterexample :
    (-2147483648 : Int) ≤ 1 ∧
    max ((-2147483648 : Int) - 1) 0 = 0 ∧
    int_sub_one (-2147483648) = 2147483647 ∧
    (os_read envNewline 1 ⟨fun _ => 7, []⟩ (-2147483648) State.init).map
        (fun r => r.2.trace) =
      some [Event.get UART_LSR 0x20, Event.get UART_THR 0x0A,
        Event.get UART_LSR 0x20, Event.put UART_THR 0x0A] ∧
    readCount UART_THR [Event.get UART_LSR 0x20, Event.get UART_THR 0x0A,
        Event.get UART_LSR 0x20, Event.put UART_THR 0x0A] = 1 ∧
    txBytes [Event.get UART_LSR 0x20, Event.get UART_THR 0x0A,
        Event.get UART_LSR 0x20, Event.put UART_THR 0x0A] = [10] ∧
    ¬ ((readCount UART_THR [Event.get UART_LSR 0x20, Event.get UART_THR 0x0A,
        Event.get UART_LSR 0x20, Event.put UART_THR 0x0A] : Int) ≤
      max ((-2147483648 : Int) - 1) 0) := by
  refine ⟨by decide, by decide, by decide, ?_, by decide, by decide, by decide⟩
  rw [os_read_int_min_run]
  rfl

/-- C19, as amended: for every `max_length = N` above `INT_MIN` (so that
`max_length - 1` does not overflow) and a UART that is always eventually ready
in both directions, `os_read` returns; the number of characters it has
consumed (reads of the receive register, one per call of `uart_getc`) is at
most `max (N - 1) 0`, and exactly `max (N - 1) 0` when the input stream
contains no line terminator; for `N ≤ 1` it makes no access at all (no input
consumed, nothing echoed), and this for every hardware and poll bound. -/
theorem os_read_consumes (env : Env) (htx : TxEventuallyReady env)
    (hrx : RxEventuallyReady env) (N : Int) (hmin : -2147483648 < N) (buffer : Buffer)
    (st : State) :
    ∃ (b : Buffer) (evs : List Event),
      RunsTo (fun fuel => os_read env fuel buffer N st) (b, st.extend evs) ∧
      (readCount UART_THR evs : Int) ≤ max (N - 1) 0 ∧
      ((∀ j, input env st j ≠ 10 ∧ input env st j ≠ 13) →
        (readCount UART_THR evs : Int) = max (N - 1) 0) ∧
      (N ≤ 1 → evs = [] ∧ txBytes evs = [] ∧
        ∀ (env2 : Env) (fuel : Nat),
          os_read env2 fuel buffer N st = some (buffer.store 0 0, st)) := by
  by_cases hN : N ≤ 1
  · refine ⟨buffer.store 0 0, [], ⟨0, fun fuel _ => ?_⟩, ?_, ?_, ?_⟩
    · show os_read env fuel buffer N st = _
      rw [os_read_small env fuel buffer N hmin hN st, extend_nil]
    · show ((0 : Nat) : Int) ≤ max (N - 1) 0
      exact le_max_right _ _
    · intro _
      show ((0 : Nat) : Int) = max (N - 1) 0
      rw [max_eq_right (by omega)]
      rfl
    · intro _
      exact ⟨rfl, rfl, fun env2 fuel => os_read_small env2 fuel buffer N hmin hN st⟩
  · obtain ⟨k, evs, hk, -, hstop, hrun, -, hcnt, -⟩ :=
      os_read_spec env htx hrx N (by omega) buffer st
    refine ⟨_, evs, hrun, ?_, ?_, fun h => absurd h hN⟩
    · rw [hcnt, max_eq_left (by omega)]
      split <;> push_cast <;> omega
    · intro hnone
      have hge : ¬ ((k : Int) < N - 1) := by
        intro hlt
        rcases hstop hlt with h10 | h13
        · exact (hnone k).1 h10
        · exact (hnone k).2 h13
      rw [hcnt, if_neg hge, max_eq_left (by omega)]
      omega

/-- Witness for the amended C19: a four-byte buffer on the always-ready
hardware, whose input contains no line terminator. -/
theorem os_read_consumes_witness :
    TxEventuallyReady envReady ∧ RxEventuallyReady envReady ∧ (-2147483648 : Int) < 4 ∧
    ∃ (b : Buffer) (evs : List Event),
      RunsTo (fun fuel => os_read envReady fuel ⟨fun _ => 7, []⟩ 4 State.init)
        (b, State.init.extend evs) ∧
      (readCount UART_THR evs : Int) ≤ max (4 - 1) 0 ∧
      ((∀ j, input envReady State.init j ≠ 10 ∧ input envReady State.init j ≠ 13) →
        (readCount UART_THR evs : Int) = max (4 - 1) 0) ∧
      ((4 : Int) ≤ 1 → evs = [] ∧ txBytes evs = [] ∧
        ∀ (env2 : Env) (fuel : Nat),
          os_read env2 fuel ⟨fun _ => 7, []⟩ 4 State.init =
            some ((⟨fun _ => 7, []⟩ : Buffer).store 0 0, State.init)) :=
  ⟨envReady_tx, envReady_rx, by decide,
    os_read_consumes envReady envReady_tx envReady_rx 4 (by decide) ⟨fun _ => 7, []⟩
      State.init⟩

/-- What `uart_putnum` does for every 32-bit value: it transmits the decimal
text and a newline. -/
theorem uart_putnum_runs (env : Env) (h : TxEventuallyReady env) (n : Nat)
    (h32 : n < 2 ^ 32) (buf : Nat → Nat) (st : State) :
    ∃ evs, Transmits evs (decimalText n ++ [10]) ∧
      RunsTo (fun fuel => uart_putnum env fuel buf n st) (st.extend evs) := by
  by_cases hz : n = 0
  · subst hz
    obtain ⟨e1, ht1, F1, h1⟩ := uart_putc_transmits env h 48 st
    obtain ⟨e2, ht2, F2, h2⟩ := uart_putc_transmits env h 10 (st.extend e1)
    refine ⟨e1 ++ e2, Transmits.append ht1 ht2, max F1 F2, fun fuel hf => ?_⟩
    have r1 : uart_putc env fuel 48 st = some (st.extend e1) :=
      h1 fuel (le_trans (le_max_left _ _) hf)
    have r2 : uart_putc env fuel 10 (st.extend e1) = some ((st.extend e1).extend e2) :=
      h2 fuel (le_trans (le_max_right _ _) hf)
    show uart_putnum env fuel buf 0 st = _
    rw [uart_putnum, if_pos rfl, r1]
    show uart_putc env fuel 10 (st.extend e1) = _
    rw [r2, extend_extend]
  · have h0 : 0 < n := by omega
    obtain ⟨-, -, hbuf⟩ := uart_putnum_digits_spec n 0 buf h0
      (lt_of_lt_of_le h32 (by norm_num))
    obtain ⟨e1, ht1, F1, h1⟩ := uart_putnum_emit_transmits env h
      (uart_putnum_digits n 0 buf).2.2 (uart_putnum_digits n 0 buf).2.1 st
    obtain ⟨e2, ht2, F2, h2⟩ := uart_putc_transmits env h 10 (st.extend e1)
    have hbytes : (bufRev (uart_putnum_digits n 0 buf).2.2
        (uart_putnum_digits n 0 buf).2.1).map (fun c => c % 256) = decimal n := by
      rw [hbuf]
      simp only [bufRev, List.append_nil]
      rw [List.map_congr_left (g := id)]
      · simp
      · intro c hc
        have := decimal_digit hc
        simp only [id]
        omega
    rw [hbytes] at ht1
    refine ⟨e1 ++ e2, ?_, max F1 F2, fun fuel hf => ?_⟩
    · have := Transmits.append ht1 ht2
      simpa [decimalText, hz] using this
    · have r1 : uart_putnum_emit env fuel (uart_putnum_digits n 0 buf).2.1
          (uart_putnum_digits n 0 buf).2.2 st = some (st.extend e1) :=
        h1 fuel (le_trans (le_max_left _ _) hf)
      have r2 : uart_putc env fuel 10 (st.extend e1) = some ((st.extend e1).extend e2) :=
        h2 fuel (le_trans (le_max_right _ _) hf)
      show uart_putnum env fuel buf n st = _
      rw [uart_putnum, if_neg hz]
      simp only []
      rw [r1]
      show uart_putc env fuel 10 (st.extend e1) = _
      rw [r2, extend_extend]

theorem rand_eq (st : State) :
    rand st = ((st.seed * 1103515245 + 12345) % 2 ^ 31,
      { trace := st.trace, seed := (st.seed * 1103515245 + 12345) % 2 ^ 31 }) := by
  have hmask : (0x7fffffff : Nat) = 2 ^ 31 - 1 := by norm_num
  have key : ((st.seed * 1103515245 % 2 ^ 32 + 12345) % 2 ^ 32) &&& 0x7fffffff =
      (st.seed * 1103515245 + 12345) % 2 ^ 31 := by
    rw [hmask, Nat.and_pow_two_sub_one_eq_mod]
    omega
  simp only [rand, key]

/-- One pass through the loop of `main`: the seed advances by one step and the
decimal text of the new seed modulo 1000 is transmitted with a newline. -/
theorem main_iteration_runs (env : Env) (h : TxEventuallyReady env) (buf : Nat → Nat)
    (st : State) :
    ∃ evs, Transmits evs (decimalText (lcg st.seed 1 % 1000) ++ [10]) ∧
      RunsTo (fun fuel => main_iteration env fuel buf st)
        { trace := st.trace ++ evs, seed := lcg st.seed 1 } := by
  obtain ⟨evs, ht, F, hrun⟩ := uart_putnum_runs env h (lcg st.seed 1 % 1000)
    (lt_of_lt_of_le (Nat.mod_lt _ (by norm_num)) (by norm_num)) buf
    { trace := st.trace, seed := lcg st.seed 1 }
  refine ⟨evs, ht, F, fun fuel hf => ?_⟩
  have r : uart_putnum env fuel buf (lcg st.seed 1 % 1000)
      { trace := st.trace, seed := lcg st.seed 1 } = some _ := hrun fuel hf
  show main_iteration env fuel buf st = _
  simp only [main_iteration, rand_eq]
  exact r

theorem lcg_succ_left (s : Nat) : ∀ k, lcg s (k + 1) = lcg (lcg s k) 1 := by
  intro k
  rfl

/-- The part of `main` before its loop. -/
theorem main_startup_runs (env : Env) (h : TxEventuallyReady env) (st : State) :
    ∃ e1 e2 e3 e4, Transmits e1 msg_starting ∧ Transmits e2 msg_timer_initialized ∧
      Transmits e3 msg_enabling ∧ Transmits e4 msg_irqs_enabled ∧
      RunsTo (fun fuel => main_startup env fuel st)
        (st.extend (e1 ++ timer_init_writes ++ e2 ++ e3 ++ [Event.irq] ++ e4)) := by
  obtain ⟨e1, ht1, -, F1, h1⟩ := os_write_transmits env h msg_starting st (by decide)
  obtain ⟨e2, ht2, -, F2, h2⟩ := os_write_transmits env h msg_timer_initialized
    (timer_init (st.extend e1)) (by decide)
  obtain ⟨e3, ht3, -, F3, h3⟩ := os_write_transmits env h msg_enabling
    ((timer_init (st.extend e1)).extend e2) (by decide)
  obtain ⟨e4, ht4, -, F4, h4⟩ := os_write_transmits env h msg_irqs_enabled
    (enable_irq (((timer_init (st.extend e1)).extend e2).extend e3)) (by decide)
  have hs1 : msg_starting.takeWhile (fun c => decide (c ≠ 0)) = msg_starting := by decide
  have hs2 : msg_timer_initialized.takeWhile (fun c => decide (c ≠ 0)) =
      msg_timer_initialized := by decide
  have hs3 : msg_enabling.takeWhile (fun c => decide (c ≠ 0)) = msg_enabling := by decide
  have hs4 : msg_irqs_enabled.takeWhile (fun c => decide (c ≠ 0)) = msg_irqs_enabled := by
    decide
  rw [hs1] at ht1
  rw [hs2] at ht2
  rw [hs3] at ht3
  rw [hs4] at ht4
  refine ⟨e1, e2, e3, e4, ht1, ht2, ht3, ht4, max (max F1 F2) (max F3 F4), fun fuel hf => ?_⟩
  have r1 : os_write env fuel msg_starting st = some _ :=
    h1 fuel (le_trans (le_trans (le_max_left _ _) (le_max_left _ _)) hf)
  have r2 : os_write env fuel msg_timer_initialized (timer_init (st.extend e1)) = some _ :=
    h2 fuel (le_trans (le_trans (le_max_right _ _) (le_max_left _ _)) hf)
  have r3 : os_write env fuel msg_enabling ((timer_init (st.extend e1)).extend e2) = some _ :=
    h3 fuel (le_trans (le_trans (le_max_left _ _) (le_max_right _ _)) hf)
  have r4 : os_write env fuel msg_irqs_enabled
      (enable_irq (((timer_init (st.extend e1)).extend e2).extend e3)) = some _ :=
    h4 fuel (le_trans (le_trans (le_max_right _ _) (le_max_right _ _)) hf)
  show main_startup env fuel st = _
  rw [main_startup, r1]
  simp only []
  rw [r2]
  simp only []
  rw [r3]
  simp only []
  rw [r4, timer_init_eq]
  simp only [enable_irq, State.extend, timer_init_writes, List.append_assoc]

/-- The first `n` passes through the loop of `main`: the seed has advanced `n`
steps and only polled transmissions have been made. -/
theorem main_loop_runs (env : Env) (h : TxEventuallyReady env) (bufs : Nat → Nat → Nat) :
    ∀ (n : Nat) (st : State),
    ∃ evs, (∀ e ∈ evs, isTx e = true) ∧ (n = 0 → evs = []) ∧
      RunsTo (fun fuel => main_loop env fuel bufs n st)
        { trace := st.trace ++ evs, seed := lcg st.seed n } := by
  intro n
  induction n with
  | zero =>
    intro st
    refine ⟨[], by simp, fun _ => rfl, 0, fun fuel _ => ?_⟩
    show main_loop env fuel bufs 0 st = _
    rw [main_loop]
    simp [lcg]
  | succ n ih =>
    intro st
    obtain ⟨e1, ht1, -, F1, h1⟩ := ih st
    obtain ⟨e2, ht2, F2, h2⟩ := main_iteration_runs env h (bufs n)
      { trace := st.trace ++ e1, seed := lcg st.seed n }
    refine ⟨e1 ++ e2, ?_, fun hn => absurd hn (by omega), max F1 F2, fun fuel hf => ?_⟩
    · intro e he
      rcases List.mem_append.1 he with he | he
      · exact ht1 e he
      · exact ht2.1 e he
    · have r1 : main_loop env fuel bufs n st = some _ :=
        h1 fuel (le_trans (le_max_left _ _) hf)
      have r2 : main_iteration env fuel (bufs n)
          { trace := st.trace ++ e1, seed := lcg st.seed n } = some _ :=
        h2 fuel (le_trans (le_max_right _ _) hf)
      show main_loop env fuel bufs (n + 1) st = _
      rw [main_loop, r1]
      simp only []
      rw [r2]
      simp only [List.append_assoc]
      rfl

theorem uart_putc_seed (env : Env) (c : Nat) : ∀ (fuel : Nat) (st st1 : State),
    uart_putc env fuel c st = some st1 → st1.seed = st.seed := by
  intro fuel
  induction fuel with
  | zero => intro st st1 h; simp [uart_putc] at h
  | succ f ih =>
    intro st st1 h
    rw [uart_putc] at h
    split at h
    · exact ih (GET32 env UART_LSR st).2 st1 h
    · simp only [Option.some.injEq] at h
      rw [← h]
      rfl

theorem uart_getc_seed (env : Env) : ∀ (fuel : Nat) (st : State) (r : Nat × State),
    uart_getc env fuel st = some r → r.2.seed = st.seed := by
  intro fuel
  induction fuel with
  | zero => intro st r h; simp [uart_getc] at h
  | succ f ih =>
    intro st r h
    rw [uart_getc] at h
    split at h
    · exact ih (GET32 env UART_LSR st).2 r h
    · simp only [Option.some.injEq] at h
      rw [← h]
      rfl

theorem os_write_seed (env : Env) (fuel : Nat) : ∀ (s : List Nat) (st st1 : State),
    os_write env fuel s st = some st1 → st1.seed = st.seed := by
  intro s
  induction s with
  | nil =>
    intro st st1 h
    rw [os_write] at h
    simp only [Option.some.injEq] at h
    rw [h]
  | cons c s ih =>
    intro st st1 h
    rw [os_write] at h
    split at h
    · simp only [Option.some.injEq] at h
      rw [h]
    · cases hp : uart_putc env fuel c st with
      | none => rw [hp] at h; simp at h
      | some st2 =>
        rw [hp] at h
        rw [ih st2 st1 h, uart_putc_seed env c fuel st st2 hp]

theorem os_read_loop_seed (env : Env) (fuel : Nat) (N : Int) :
    ∀ (m i : Nat) (b : Buffer) (st : State) (r : Nat × Buffer × State),
    (int_sub_one N - (i : Int)).toNat ≤ m →
    os_read_loop env fuel N i b st = some r → r.2.2.seed = st.seed := by
  intro m
  induction m with
  | zero =>
    intro i b st r hm h
    rw [os_read_loop, if_neg (by omega)] at h
    simp only [Option.some.injEq] at h
    rw [← h]
  | succ m ih =>
    intro i b st r hm h
    rw [os_read_loop] at h
    split at h
    · cases hg : uart_getc env fuel st with
      | none => rw [hg] at h; simp at h
      | some cs =>
        obtain ⟨c, st1⟩ := cs
        have hs1 : st1.seed = st.seed := uart_getc_seed env fuel st (c, st1) hg
        rw [hg] at h
        simp only [] at h
        split at h
        · cases hp : uart_putc env fuel 10 st1 with
          | none => rw [hp] at h; simp at h
          | some st2 =>
            rw [hp] at h
            simp only [Option.some.injEq] at h
            rw [← h]
            show st2.seed = st.seed
            rw [uart_putc_seed env 10 fuel st1 st2 hp, hs1]
        · cases hp : uart_putc env fuel c st1 with
          | none => rw [hp] at h; simp at h
          | some st2 =>
            rw [hp] at h
            simp only [] at h
            rw [ih (i + 1) _ st2 r (by push_cast; omega) h,
              uart_putc_seed env c fuel st1 st2 hp, hs1]
    · simp only [Option.some.injEq] at h
      rw [← h]

theorem os_read_seed (env : Env) (fuel : Nat) (buffer : Buffer) (N : Int) (st : State)
    (r : Buffer × State) (h : os_read env fuel buffer N st = some r) :
    r.2.seed = st.seed := by
  rw [os_read] at h
  cases hl : os_read_loop env fuel N 0 buffer st with
  | none => rw [hl] at h; simp at h
  | some q =>
    obtain ⟨i, b, st1⟩ := q
    rw [hl] at h
    simp only [Option.some.injEq] at h
    rw [← h]
    exact os_read_loop_seed env fuel N _ 0 buffer st (i, b, st1) le_rfl hl

theorem uart_putnum_emit_seed (env : Env) (fuel : Nat) (buf : Nat → Nat) :
    ∀ (i : Nat) (st st1 : State),
    uart_putnum_emit env fuel i buf st = some st1 → st1.seed = st.seed := by
  intro i
  induction i with
  | zero =>
    intro st st1 h
    rw [uart_putnum_emit] at h
    simp only [Option.some.injEq] at h
    rw [h]
  | succ i ih =>
    intro st st1 h
    rw [uart_putnum_emit] at h
    cases hp : uart_putc env fuel (buf i) st with
    | none => rw [hp] at h; simp at h
    | some st2 =>
      rw [hp] at h
      rw [ih st2 st1 h, uart_putc_seed env (buf i) fuel st st2 hp]

theorem uart_putnum_seed (env : Env) (fuel : Nat) (buf : Nat → Nat) (num : Nat)
    (st st1 : State) (h : uart_putnum env fuel buf num st = some st1) :
    st1.seed = st.seed := by
  rw [uart_putnum] at h
  split at h
  · cases hp : uart_putc env fuel 48 st with
    | none => rw [hp] at h; simp at h
    | some st2 =>
      rw [hp] at h
      rw [uart_putc_seed env 10 fuel st2 st1 h, uart_putc_seed env 48 fuel st st2 hp]
  · simp only [] at h
    cases he : uart_putnum_emit env fuel (uart_putnum_digits num 0 buf).2.1
        (uart_putnum_digits num 0 buf).2.2 st with
    | none => rw [he] at h; simp at h
    | some st2 =>
      rw [he] at h
      rw [uart_putc_seed env 10 fuel st2 st1 h, uart_putnum_emit_seed env fuel _ _ st st2 he]

theorem timer_irq_handler_seed (env : Env) (fuel : Nat) (st st1 : State)
    (h : timer_irq_handler env fuel st = some st1) : st1.seed = st.seed := by
  rw [timer_irq_handler_eq] at h
  rw [os_write_seed env fuel _ _ _ h, extend_seed]

/-- Values below 1000 have a decimal text of one to three digits. -/
theorem decimalText_small {v : Nat} (hv : v < 1000) :
    1 ≤ (decimalText v).length ∧ (decimalText v).length ≤ 3 ∧
    ∀ c ∈ decimalText v, 48 ≤ c ∧ c ≤ 57 := by
  unfold decimalText
  by_cases hz : v = 0
  · rw [if_pos hz]
    refine ⟨by simp, by simp, ?_⟩
    intro c hc
    rw [List.mem_singleton] at hc
    omega
  · rw [if_neg hz]
    have hlen : (decimal v).length = (Nat.digits 10 v).length := by simp [decimal]
    have hne : Nat.digits 10 v ≠ [] := Nat.digits_ne_nil_iff_ne_zero.2 hz
    have h1 : 1 ≤ (Nat.digits 10 v).length := List.length_pos.2 hne
    have h3 : (Nat.digits 10 v).length ≤ 3 := by
      have hpow := Nat.base_pow_length_digits_le 10 v (by norm_num) hz
      by_contra hgt
      have h4 : 10 ^ 4 ≤ 10 ^ (Nat.digits 10 v).length :=
        Nat.pow_le_pow_right (by norm_num) (by omega)
      have : (10 : Nat) ^ 4 ≤ 10 * v := le_trans h4 hpow
      norm_num at this
      omega
    exact ⟨by omega, by omega, fun c hc => decimal_digit hc⟩

/-- C11: with an eventually ready transmitter, `main` observed up to any
number `n` of loop passes returns a trace that begins with exactly: a polled
transmission of `"Starting...\n"`; the nine register writes of `timer_init`;
polled transmissions of `"Timer initialized\n"` and of
`"Enabling interrupts...\n"`; the call of `enable_irq`; a polled transmission
of `"IRQs enabled\n"`.  The same beginning is followed, for each `n`, by polled
transmissions only (the loop), nothing follows it for `n = 0`; `enable_irq`
does not occur before the nine writes are complete, and the bytes transmitted
up to the end of the fourth message are the four messages and nothing else. -/
theorem main_startup_order (env : Env) (h : TxEventuallyReady env) (st : State) :
    ∃ e1 e2 e3 e4, Transmits e1 msg_starting ∧ Transmits e2 msg_timer_initialized ∧
      Transmits e3 msg_enabling ∧ Transmits e4 msg_irqs_enabled ∧
      (∀ (bufs : Nat → Nat → Nat) (n : Nat), ∃ rest st1,
        RunsTo (fun fuel => main env fuel bufs n st) st1 ∧
        st1.trace = st.trace ++
          (e1 ++ timer_init_writes ++ e2 ++ e3 ++ [Event.irq] ++ e4) ++ rest ∧
        (∀ e ∈ rest, isTx e = true) ∧ (n = 0 → rest = [])) ∧
      (∀ s : State, timer_init s = s.extend timer_init_writes) ∧
      timer_init_writes =
        [Event.put CM_PER_TIMER2_CLKCTRL 0x2, Event.put INTC_MIR_CLEAR2 0x10,
         Event.put INTC_ILR68 0x0, Event.put TCLR 0x0, Event.put TISR 0x7,
         Event.put TLDR 0xFE91CA00, Event.put TCRR 0xFE91CA00, Event.put TIER 0x2,
         Event.put TCLR 0x3] ∧
      Event.irq ∉ e1 ++ timer_init_writes ++ e2 ++ e3 ∧
      txBytes (e1 ++ timer_init_writes ++ e2 ++ e3 ++ [Event.irq] ++ e4) =
        msg_starting ++ msg_timer_initialized ++ msg_enabling ++ msg_irqs_enabled := by
  obtain ⟨e1, e2, e3, e4, ht1, ht2, ht3, ht4, F0, hstart⟩ := main_startup_runs env h st
  have hnoirq : ∀ {evs : List Event} {bs : List Nat}, Transmits evs bs → Event.irq ∉ evs := by
    intro evs bs ht hmem
    have := ht.1 _ hmem
    simp [isTx] at this
  refine ⟨e1, e2, e3, e4, ht1, ht2, ht3, ht4, ?_, timer_init_eq, rfl, ?_, ?_⟩
  · intro bufs n
    obtain ⟨rest, hrest, hnil, F1, hloop⟩ := main_loop_runs env h bufs n
      (st.extend (e1 ++ timer_init_writes ++ e2 ++ e3 ++ [Event.irq] ++ e4))
    refine ⟨rest, State.mk (st.trace ++
      (e1 ++ timer_init_writes ++ e2 ++ e3 ++ [Event.irq] ++ e4) ++ rest) (lcg st.seed n),
      ⟨max F0 F1, fun fuel hf => ?_⟩, rfl, hrest, hnil⟩
    have r0 : main_startup env fuel st = some _ := hstart fuel (le_trans (le_max_left _ _) hf)
    have r1 : main_loop env fuel bufs n _ = some _ :=
      hloop fuel (le_trans (le_max_right _ _) hf)
    show main env fuel bufs n st = _
    rw [main, r0]
    simp only []
    rw [r1]
    rfl
  · intro hmem
    simp only [List.mem_append] at hmem
    rcases hmem with ((hm | hm) | hm) | hm
    · exact hnoirq ht1 hm
    · revert hm
      decide
    · exact hnoirq ht2 hm
    · exact hnoirq ht3 hm
  · simp only [txBytes_append, ht1.2, ht2.2, ht3.2, ht4.2]
    have hw : txBytes timer_init_writes = [] := by decide
    have hi : txBytes [Event.irq] = [] := rfl
    rw [hw, hi]
    simp

/-- Witness for C11 on the always-ready hardware. -/
theorem main_startup_order_witness :
    TxEventuallyReady envReady ∧
    ∃ e1 e2 e3 e4, Transmits e1 msg_starting ∧ Transmits e2 msg_timer_initialized ∧
      Transmits e3 msg_enabling ∧ Transmits e4 msg_irqs_enabled ∧
      (∀ (bufs : Nat → Nat → Nat) (n : Nat), ∃ rest st1,
        RunsTo (fun fuel => main envReady fuel bufs n State.init) st1 ∧
        st1.trace = State.init.trace ++
          (e1 ++ timer_init_writes ++ e2 ++ e3 ++ [Event.irq] ++ e4) ++ rest ∧
        (∀ e ∈ rest, isTx e = true) ∧ (n = 0 → rest = [])) ∧
      (∀ s : State, timer_init s = s.extend timer_init_writes) ∧
      timer_init_writes =
        [Event.put CM_PER_TIMER2_CLKCTRL 0x2, Event.put INTC_MIR_CLEAR2 0x10,
         Event.put INTC_ILR68 0x0, Event.put TCLR 0x0, Event.put TISR 0x7,
         Event.put TLDR 0xFE91CA00, Event.put TCRR 0xFE91CA00, Event.put TIER 0x2,
         Event.put TCLR 0x3] ∧
      Event.irq ∉ e1 ++ timer_init_writes ++ e2 ++ e3 ∧
      txBytes (e1 ++ timer_init_writes ++ e2 ++ e3 ++ [Event.irq] ++ e4) =
        msg_starting ++ msg_timer_initialized ++ msg_enabling ++ msg_irqs_enabled :=
  ⟨envReady_tx, main_startup_order envReady envReady_tx State.init⟩

/-- C13: in every pass through the loop of `main`, whatever the seed, the
value passed to `uart_putnum` is `rand() % 1000`, which is at most 999; with
an eventually ready transmitter the pass returns having transmitted exactly
one numeric line: the decimal text of that value, consisting of one to three
ASCII digits, followed by `'\n'`. -/
theorem main_iteration_range (env : Env) (h : TxEventuallyReady env) (buf : Nat → Nat)
    (st : State) :
    (∀ fuel, main_iteration env fuel buf st =
      uart_putnum env fuel buf ((rand st).1 % 1000) (rand st).2) ∧
    (rand st).1 % 1000 ≤ 999 ∧
    ∃ ds evs,
      RunsTo (fun fuel => main_iteration env fuel buf st)
        { trace := st.trace ++ evs, seed := (rand st).1 } ∧
      Transmits evs (ds ++ [10]) ∧
      ds = decimalText ((rand st).1 % 1000) ∧
      1 ≤ ds.length ∧ ds.length ≤ 3 ∧
      (∀ c ∈ ds, 48 ≤ c ∧ c ≤ 57) := by
  have hlt : (rand st).1 % 1000 < 1000 := Nat.mod_lt _ (by norm_num)
  have hr : (rand st).1 = lcg st.seed 1 := by
    rw [rand_eq]
    rfl
  obtain ⟨evs, ht, hrun⟩ := main_iteration_runs env h buf st
  obtain ⟨l1, l3, ldig⟩ := decimalText_small hlt
  refine ⟨fun fuel => rfl, by omega, decimalText ((rand st).1 % 1000), evs, ?_, ?_, rfl, l1, l3,
    ldig⟩
  · rw [hr]
    exact hrun
  · rw [hr]
    exact ht

/-- Witness for C13 at program start on the always-ready hardware. -/
theorem main_iteration_range_witness :
    TxEventuallyReady envReady ∧
    ((∀ fuel, main_iteration envReady fuel (fun _ => 0) State.init =
      uart_putnum envReady fuel (fun _ => 0) ((rand State.init).1 % 1000) (rand State.init).2) ∧
    (rand State.init).1 % 1000 ≤ 999 ∧
    ∃ ds evs,
      RunsTo (fun fuel => main_iteration envReady fuel (fun _ => 0) State.init)
        { trace := State.init.trace ++ evs, seed := (rand State.init).1 } ∧
      Transmits evs (ds ++ [10]) ∧
      ds = decimalText ((rand State.init).1 % 1000) ∧
      1 ≤ ds.length ∧ ds.length ≤ 3 ∧
      (∀ c ∈ ds, 48 ≤ c ∧ c ≤ 57)) :=
  ⟨envReady_tx, main_iteration_range envReady envReady_tx (fun _ => 0) State.init⟩

/-- C12: with an eventually ready transmitter and `x_0` the seed at the start
of `main` (12345 at program start), `x_{i+1} = (x_i * 1103515245 + 12345) mod
2^31`: for every `k`, `main` observed up to `k` and up to `k + 1` loop passes
returns, the seed after `k` passes is `x_k`, and what pass `k + 1` adds to the
trace is a polled transmission of exactly the decimal text of
`x_{k+1} mod 1000` followed by `'\n'`, the `(k+1)`-th numeric line.  The lines
do not depend on the hardware or on the content of the local arrays.  The seed
is left as it is by `uart_putc`, `uart_getc`, `os_write`, `os_read`,
`uart_putnum`, `timer_init` and `timer_irq_handler` whenever they return. -/
theorem main_numeric_line (env : Env) (h : TxEventuallyReady env) (bufs : Nat → Nat → Nat)
    (k : Nat) (st : State) :
    (∃ st1 st2 evs,
      RunsTo (fun fuel => main env fuel bufs k st) st1 ∧
      st1.seed = lcg st.seed k ∧
      RunsTo (fun fuel => main env fuel bufs (k + 1) st) st2 ∧
      st2.trace = st1.trace ++ evs ∧
      st2.seed = lcg st.seed (k + 1) ∧
      Transmits evs (decimalText (lcg st.seed (k + 1) % 1000) ++ [10])) ∧
    State.init.seed = 12345 ∧
    lcg st.seed 0 = st.seed ∧
    (∀ i, lcg st.seed (i + 1) = (lcg st.seed i * 1103515245 + 12345) % 2 ^ 31) ∧
    (∀ s : State, (rand s).2.seed = (s.seed * 1103515245 + 12345) % 2 ^ 31) ∧
    (∀ e f c s s1, uart_putc e f c s = some s1 → s1.seed = s.seed) ∧
    (∀ e f s r, uart_getc e f s = some r → r.2.seed = s.seed) ∧
    (∀ e f str s s1, os_write e f str s = some s1 → s1.seed = s.seed) ∧
    (∀ e f b N s r, os_read e f b N s = some r → r.2.seed = s.seed) ∧
    (∀ e f b n s s1, uart_putnum e f b n s = some s1 → s1.seed = s.seed) ∧
    (∀ s, (timer_init s).seed = s.seed) ∧
    (∀ e f s s1, timer_irq_handler e f s = some s1 → s1.seed = s.seed) := by
  refine ⟨?_, rfl, rfl, fun i => rfl, fun s => by rw [rand_eq],
    fun e f c s s1 hh => uart_putc_seed e c f s s1 hh,
    fun e f s r hh => uart_getc_seed e f s r hh,
    fun e f str s s1 hh => os_write_seed e f str s s1 hh,
    fun e f b N s r hh => os_read_seed e f b N s r hh,
    fun e f b n s s1 hh => uart_putnum_seed e f b n s s1 hh,
    fun s => rfl,
    fun e f s s1 hh => timer_irq_handler_seed e f s s1 hh⟩
  obtain ⟨e1, e2, e3, e4, -, -, -, -, F0, hstart⟩ := main_startup_runs env h st
  obtain ⟨rest, -, -, F1, hloop⟩ := main_loop_runs env h bufs k
    (st.extend (e1 ++ timer_init_writes ++ e2 ++ e3 ++ [Event.irq] ++ e4))
  obtain ⟨evs, ht, F2, hiter⟩ := main_iteration_runs env h (bufs k)
    { trace := (st.extend (e1 ++ timer_init_writes ++ e2 ++ e3 ++ [Event.irq] ++ e4)).trace ++
        rest,
      seed := lcg st.seed k }
  have hstep : lcg (lcg st.seed k) 1 = lcg st.seed (k + 1) := rfl
  rw [hstep] at ht hiter
  refine ⟨State.mk ((st.extend (e1 ++ timer_init_writes ++ e2 ++ e3 ++ [Event.irq] ++
      e4)).trace ++ rest) (lcg st.seed k),
    State.mk (((st.extend (e1 ++ timer_init_writes ++ e2 ++ e3 ++ [Event.irq] ++
      e4)).trace ++ rest) ++ evs) (lcg st.seed (k + 1)),
    evs, ⟨max F0 F1, fun fuel hf => ?_⟩, rfl, ⟨max (max F0 F1) F2, fun fuel hf => ?_⟩,
    rfl, rfl, ht⟩
  · have r0 : main_startup env fuel st = some _ := hstart fuel (le_trans (le_max_left _ _) hf)
    have r1 : main_loop env fuel bufs k _ = some _ :=
      hloop fuel (le_trans (le_max_right _ _) hf)
    show main env fuel bufs k st = _
    rw [main, r0]
    simp only []
    rw [r1]
    rfl
  · have r0 : main_startup env fuel st = some _ :=
      hstart fuel (le_trans (le_trans (le_max_left _ _) (le_max_left _ _)) hf)
    have r1 : main_loop env fuel bufs k _ = some _ :=
      hloop fuel (le_trans (le_trans (le_max_right _ _) (le_max_left _ _)) hf)
    have r2 : main_iteration env fuel (bufs k) _ = some _ :=
      hiter fuel (le_trans (le_max_right _ _) hf)
    show main env fuel bufs (k + 1) st = _
    rw [main, r0]
    simp only []
    rw [main_loop, r1]
    exact r2

/-- Witness for C12: the first numeric line at program start on the
always-ready hardware. -/
theorem main_numeric_line_witness :
    TxEventuallyReady envReady ∧
    ((∃ st1 st2 evs,
      RunsTo (fun fuel => main envReady fuel (fun _ _ => 0) 0 State.init) st1 ∧
      st1.seed = lcg State.init.seed 0 ∧
      RunsTo (fun fuel => main envReady fuel (fun _ _ => 0) (0 + 1) State.init) st2 ∧
      st2.trace = st1.trace ++ evs ∧
      st2.seed = lcg State.init.seed (0 + 1) ∧
      Transmits evs (decimalText (lcg State.init.seed (0 + 1) % 1000) ++ [10])) ∧
    State.init.seed = 12345 ∧
    lcg State.init.seed 0 = State.init.seed ∧
    (∀ i, lcg State.init.seed (i + 1) =
      (lcg State.init.seed i * 1103515245 + 12345) % 2 ^ 31) ∧
    (∀ s : State, (rand s).2.seed = (s.seed * 1103515245 + 12345) % 2 ^ 31) ∧
    (∀ e f c s s1, uart_putc e f c s = some s1 → s1.seed = s.seed) ∧
    (∀ e f s r, uart_getc e f s = some r → r.2.seed = s.seed) ∧
    (∀ e f str s s1, os_write e f str s = some s1 → s1.seed = s.seed) ∧
    (∀ e f b N s r, os_read e f b N s = some r → r.2.seed = s.seed) ∧
    (∀ e f b n s s1, uart_putnum e f b n s = some s1 → s1.seed = s.seed) ∧
    (∀ s, (timer_init s).seed = s.seed) ∧
    (∀ e f s s1, timer_irq_handler e f s = some s1 → s1.seed = s.seed)) :=
  ⟨envReady_tx, main_numeric_line envReady envReady_tx (fun _ _ => 0) 0 State.init⟩

end OS
